import Mathlib

/-!
# OpenSL ES audio output: the streaming write path

A shallow embedding of `opensles_write`
(`libavo/src/audio_output/opensles/opensles_output.c`, lines 52-94) and the
properties of its ring-buffer accounting.

Modelling conventions.

* C `int` values (`count`, `i`, `free`, `offset`, `samples_per_buffer`) are
  unbounded `Int`, and `%` on `int` is C's truncating remainder, `Int.tmod`.
  Signed overflow is undefined in C and is not modelled: the sizes of a
  session (capacity in bytes, `count * bytes_per_sample`) are taken to fit an
  `int`, as the `malloc` of `opensles_open` takes them to.
* `SLresult` and `state.count` are `SLuint32`; they are natural numbers, and
  the two places where an `SLresult` is turned into the `int` return value
  (lines 64 and 78) reduce modulo `2 ^ 32` explicitly.
* Memory is a map from byte offsets to bytes. The backing store is addressed
  relative to `player->ptr`, the input relative to `samples`.
* The playback engine is an oracle: the answer of the one `GetState` call and
  the answer of the `k`-th `Enqueue` call of the current write.
* Every `memcpy`, `Enqueue` and `assert` the code executes is recorded, in
  order, in a trace, so that what the call did (and not only the state it
  left) can be stated. A failed `assert` is recorded and the run goes on, as
  in a build with `NDEBUG`.
* The model is total. Where C is undefined (`% 0` when `samples_per_buffer`
  is 0, a negative length given to `memcpy`) it still computes a value; the
  statements that depend on the arithmetic of frames assume
  `samples_per_buffer > 0` and a write offset inside the backing store.
-/

namespace OpenSLES

/-- The OpenSL ES result type `SLresult`, an `SLuint32`. -/
abbrev SLresult := Nat

/-- The success code `SL_RESULT_SUCCESS`. -/
def SL_RESULT_SUCCESS : SLresult := 0

/-- Conversion of an `SLuint32` to the `int` that `opensles_write` returns
(two's complement wrap-around). -/
def int_of_u32 (u : Nat) : Int :=
  if u % 2 ^ 32 < 2 ^ 31 then ((u % 2 ^ 32 : Nat) : Int)
  else ((u % 2 ^ 32 : Nat) : Int) - 2 ^ 32

/-- Unary minus on an `SLuint32` (the `-ret` of line 78). -/
def neg_u32 (u : Nat) : Nat := (2 ^ 32 - u % 2 ^ 32) % 2 ^ 32

/-- Modelled from the spec: the declaration of `struct opensles_player_t`
(`opensles_player.h`) is not part of the sources; the fields used by the write
path follow the spec's data model. `bytes_per_sample` is
`channels * sample_bits / 8` with `channels ≥ 1` and `sample_bits` one of
8, 16, 24, 32, a byte size; `ptr` is the content of the backing store, indexed
by byte offset from its first byte; `offset` is the write offset in samples. -/
structure opensles_player_t where
  bytes_per_sample : Nat
  samples_per_buffer : Int
  offset : Int
  ptr : Int → Nat

/-- The playback engine as seen by one call of `opensles_write`: what
`GetState` answers (result code and `state.count`) and what the `k`-th call of
`Enqueue` answers. -/
structure BufferQueue where
  GetState : SLresult × Nat
  Enqueue : Nat → SLresult

/-- What a call did, in order: `memcpy dst src n` copies `n` bytes from byte
offset `src` of the input to byte offset `dst` of the backing store;
`Enqueue buf size ret` hands the `size` bytes at byte offset `buf` of the
backing store to the engine, which answers `ret`; `assert_count ok` and
`assert_offset ok` are the assertions of lines 66 and 88 and whether they
held. -/
inductive Event where
  | memcpy (dst src n : Int)
  | Enqueue (buf size : Int) (ret : SLresult)
  | assert_count (ok : Bool)
  | assert_offset (ok : Bool)
  deriving DecidableEq

/-- Outcome of `opensles_write`: the returned `int`, the session afterwards
and the trace of the call. -/
structure WriteResult where
  ret : Int
  player : opensles_player_t
  trace : List Event

/-- The C library `memcpy(dst + d, src + s, n)` on byte maps. -/
def memcpy (dst : Int → Nat) (d : Int) (src : Int → Nat) (s n : Int) : Int → Nat :=
  fun a => if d ≤ a ∧ a < d + n then src (s + (a - d)) else dst a

/-- The `for` loop of `opensles_write` (lines 70-91). `k` counts the `Enqueue`
calls already made, `i` and `state_count` are the loop variables. The first
argument bounds the number of iterations; `opensles_write` passes
`OPENSLES_BUFFERS - state.count`, which the loop condition never lets the loop
exceed (`write_loop_fuel`). -/
def write_loop (OPENSLES_BUFFERS : Nat) (bufferQ : BufferQueue) (src : Int → Nat)
    (count : Int) : Nat → Nat → Int → Nat → opensles_player_t → WriteResult
  | 0, _, i, _, player => ⟨i, player, []⟩
  | fuel + 1, k, i, state_count, player =>
    if i < count ∧ state_count < OPENSLES_BUFFERS then
      let free := player.samples_per_buffer
        - Int.tmod player.offset player.samples_per_buffer
      if count - i ≥ free then
        let ptr := memcpy player.ptr (player.offset * player.bytes_per_sample)
          src (i * player.bytes_per_sample) (free * player.bytes_per_sample)
        let ret := bufferQ.Enqueue k
        let ev := [Event.memcpy (player.offset * player.bytes_per_sample)
            (i * player.bytes_per_sample) (free * player.bytes_per_sample),
          Event.Enqueue
            ((player.offset - Int.tmod player.offset player.samples_per_buffer)
              * player.bytes_per_sample)
            (player.bytes_per_sample * player.samples_per_buffer) ret]
        if SL_RESULT_SUCCESS ≠ ret then
          ⟨if ret > 0 then int_of_u32 (neg_u32 ret) else int_of_u32 ret,
            { player with ptr := ptr }, ev⟩
        else
          let r := write_loop OPENSLES_BUFFERS bufferQ src count fuel (k + 1) (i + free)
            (state_count + 1)
            { player with
              ptr := ptr
              offset := Int.tmod (player.offset + free)
                (player.samples_per_buffer * OPENSLES_BUFFERS) }
          { r with trace := ev ++ r.trace }
      else
        let ptr := memcpy player.ptr (player.offset * player.bytes_per_sample)
          src (i * player.bytes_per_sample) ((count - i) * player.bytes_per_sample)
        let offset := player.offset + (count - i)
        ⟨count, { player with ptr := ptr, offset := offset },
          [Event.memcpy (player.offset * player.bytes_per_sample)
            (i * player.bytes_per_sample) ((count - i) * player.bytes_per_sample),
           Event.assert_offset
            (decide (offset < player.samples_per_buffer * OPENSLES_BUFFERS))]⟩
    else ⟨i, player, []⟩

/-- The function `opensles_write(p, samples, count)`. `OPENSLES_BUFFERS` is the
compile-time constant of the missing header `opensles_player.h`, taken as a
parameter. -/
def opensles_write (OPENSLES_BUFFERS : Nat) (bufferQ : BufferQueue)
    (player : opensles_player_t) (samples : Int → Nat) (count : Int) : WriteResult :=
  let ret := bufferQ.GetState.1
  let state_count := bufferQ.GetState.2
  if SL_RESULT_SUCCESS ≠ ret then ⟨int_of_u32 ret, player, []⟩
  else if state_count ≥ OPENSLES_BUFFERS then
    ⟨-1, player, [Event.assert_count (decide (state_count ≤ OPENSLES_BUFFERS))]⟩
  else
    let r := write_loop OPENSLES_BUFFERS bufferQ samples count
      (OPENSLES_BUFFERS - state_count) 0 0 state_count player
    { r with trace := Event.assert_count (decide (state_count ≤ OPENSLES_BUFFERS)) :: r.trace }

/-- Number of frames handed to the engine in a trace. -/
def enqueues : List Event → Nat
  | [] => 0
  | Event.Enqueue _ _ _ :: t => enqueues t + 1
  | _ :: t => enqueues t


/-- Closed form of the number of samples the loop consumes when every
submission succeeds: the input that is left, capped by the room of the frame
under the write offset plus one whole frame for every further free slot. -/
def write_span (B : Nat) (count i : Int) (cnt : Nat) (spb off : Int) : Int :=
  if cnt < B then min (count - i) (spb - off % spb + ((B : Int) - cnt - 1) * spb) else 0

/-- The engine of the no-drain scenario: it accepts every submission and
reports as outstanding the `queued` frames submitted so far. -/
def stalled (queued : Nat) : BufferQueue :=
  ⟨(SL_RESULT_SUCCESS, queued), fun _ => SL_RESULT_SUCCESS⟩

/-- A session in front of the never-draining engine: the player and the number
of frames submitted so far. -/
structure Session where
  player : opensles_player_t
  queued : Nat

/-- One `opensles_write` against the never-draining engine: the returned value
and the session afterwards. -/
def session_write (B : Nat) (s : Session) (samples : Int → Nat) (count : Int) :
    Int × Session :=
  ((opensles_write B (stalled s.queued) s.player samples count).ret,
    ⟨(opensles_write B (stalled s.queued) s.player samples count).player,
      s.queued + enqueues (opensles_write B (stalled s.queued) s.player samples count).trace⟩)

/-- A sequence of `opensles_write` calls `(samples, count)` against the
never-draining engine: the returned values and the final session. -/
def session_run (B : Nat) : Session → List ((Int → Nat) × Int) → List Int × Session
  | s, [] => ([], s)
  | s, c :: rest =>
    ((session_write B s c.1 c.2).1 :: (session_run B (session_write B s c.1 c.2).2 rest).1,
      (session_run B (session_write B s c.1 c.2).2 rest).2)

/-- Total number of samples of a sequence of calls. -/
def total : List ((Int → Nat) × Int) → Int
  | [] => 0
  | c :: rest => c.2 + total rest

/-- The concatenated input of a sequence of calls, as one byte stream. -/
def stream (bps : Nat) : List ((Int → Nat) × Int) → Int → Nat
  | [], _ => 0
  | c :: rest, a => if a < c.2 * bps then c.1 a else stream bps rest (a - c.2 * bps)

/-- A session used in the concrete instances: 2 bytes per sample, frames of 4
samples, write offset 0, backing store filled with zeros. -/
def demo_player : opensles_player_t := ⟨2, 4, 0, fun _ => 0⟩

/-- Input bytes used in the concrete instances: byte `a` has value `a + 100`. -/
def demo_samples : Int → Nat := fun a => (a + 100).toNat

/-- Two calls, of 3 and of 5 samples, that together fill a ring of 2 frames of
4 samples. -/
def demo_calls : List ((Int → Nat) × Int) := [(demo_samples, 3), (demo_samples, 5)]

/-- The session reached from `demo_player` by writing 5 samples with two free
slots: one frame is queued and the write offset stands one sample into the
second frame. -/
def demo_unaligned : opensles_player_t :=
  (opensles_write 2 (stalled 0) demo_player demo_samples 5).player

/-! ## Arithmetic of frames -/

/-- Frame arithmetic of a write offset that lies inside the backing store. -/
theorem frame_arith {spb off : Int} {B : Nat} (hs : 0 < spb) (h0 : 0 ≤ off)
    (h1 : off < spb * B) :
    Int.tmod off spb = off % spb ∧ 0 ≤ off % spb ∧ off % spb < spb ∧
    off + (spb - off % spb) ≤ spb * B ∧
    Int.tmod (off + (spb - off % spb)) (spb * B) = (off + (spb - off % spb)) % (spb * B) ∧
    0 ≤ (off + (spb - off % spb)) % (spb * B) ∧
    (off + (spb - off % spb)) % (spb * B) < spb * B ∧
    ((off + (spb - off % spb)) % (spb * B)) % spb = 0 := by
  have hr0 : 0 ≤ off % spb := Int.emod_nonneg _ hs.ne'
  have hr1 : off % spb < spb := Int.emod_lt_of_pos _ hs
  have hq : spb * (off / spb) + off % spb = off := Int.ediv_add_emod off spb
  have hqB : off / spb < B := Int.ediv_lt_of_lt_mul hs (by rw [mul_comm]; exact h1)
  have hcap : 0 < spb * (B : Int) := lt_of_le_of_lt h0 h1
  have hle : spb * (off / spb + 1) ≤ spb * B :=
    Int.mul_le_mul_of_nonneg_left (by omega) hs.le
  have hsum : off + (spb - off % spb) = spb * (off / spb + 1) := by
    rw [mul_add, mul_one]; omega
  refine ⟨Int.tmod_eq_emod h0 hs.le, hr0, hr1, by rw [hsum]; exact hle, ?_, ?_, ?_, ?_⟩
  · exact Int.tmod_eq_emod (by omega) hcap.le
  · exact Int.emod_nonneg _ hcap.ne'
  · exact Int.emod_lt_of_pos _ hcap
  · rw [Int.emod_emod_of_dvd _ (Dvd.intro _ rfl), hsum, Int.mul_emod_right]


/-- A copy followed by a submission adds one submitted frame to the count. -/
theorem enqueues_full (a b c d e : Int) (f : SLresult) (t : List Event) :
    enqueues ([Event.memcpy a b c, Event.Enqueue d e f] ++ t) = enqueues t + 1 := rfl

/-- Numbers of the loop when every submission succeeds: the returned count, the
new write offset and the number of submitted frames, in closed form. -/
theorem write_loop_ok (B : Nat) (Q : BufferQueue) (src : Int → Nat) (count : Int)
    (hQ : ∀ k, Q.Enqueue k = SL_RESULT_SUCCESS) :
    ∀ (fuel k : Nat) (i : Int) (cnt : Nat) (p : opensles_player_t),
      B - cnt ≤ fuel → 0 < p.samples_per_buffer → 0 ≤ p.offset →
      p.offset < p.samples_per_buffer * B → i ≤ count →
      (write_loop B Q src count fuel k i cnt p).ret
        = i + write_span B count i cnt p.samples_per_buffer p.offset ∧
      (write_loop B Q src count fuel k i cnt p).player.offset
        = (p.offset + write_span B count i cnt p.samples_per_buffer p.offset)
            % (p.samples_per_buffer * B) ∧
      (enqueues (write_loop B Q src count fuel k i cnt p).trace : Int)
        = (p.offset % p.samples_per_buffer
            + write_span B count i cnt p.samples_per_buffer p.offset) / p.samples_per_buffer ∧
      (write_loop B Q src count fuel k i cnt p).player.samples_per_buffer
        = p.samples_per_buffer ∧
      (write_loop B Q src count fuel k i cnt p).player.bytes_per_sample
        = p.bytes_per_sample := by
  intro fuel
  induction fuel with
  | zero =>
    intro k i cnt p hf hs h0 h1 hi
    have hc : ¬ cnt < B := by omega
    have hr := Int.ediv_eq_zero_of_lt (Int.emod_nonneg p.offset hs.ne') (Int.emod_lt_of_pos _ hs)
    have hw : write_loop B Q src count 0 k i cnt p = ⟨i, p, []⟩ := rfl
    have hsp : write_span B count i cnt p.samples_per_buffer p.offset = 0 := if_neg hc
    rw [hw, hsp, add_zero, add_zero, add_zero, hr]
    exact ⟨rfl, (Int.emod_eq_of_lt h0 h1).symm, rfl, rfl, rfl⟩
  | succ fuel ih =>
    intro k i cnt p hf hs h0 h1 hi
    obtain ⟨ht, hr0, hr1, hle, ht2, hn0, hn1, hn2⟩ := frame_arith hs h0 h1
    have hr : p.offset % p.samples_per_buffer / p.samples_per_buffer = 0 :=
      Int.ediv_eq_zero_of_lt hr0 hr1
    simp only [write_loop]
    by_cases hc : i < count ∧ cnt < B
    · rw [if_pos hc]
      obtain ⟨hic, hcB⟩ := hc
      simp only [ht, ht2, hQ, ne_eq, not_true_eq_false, if_false]
      by_cases hfull : count - i ≥ p.samples_per_buffer - p.offset % p.samples_per_buffer
      · rw [if_pos hfull]
        obtain ⟨e1, e2, e3, e4, e5⟩ := ih (k + 1)
          (i + (p.samples_per_buffer - p.offset % p.samples_per_buffer)) (cnt + 1)
          ⟨p.bytes_per_sample, p.samples_per_buffer,
            (p.offset + (p.samples_per_buffer - p.offset % p.samples_per_buffer))
              % (p.samples_per_buffer * B),
            memcpy p.ptr (p.offset * p.bytes_per_sample) src (i * p.bytes_per_sample)
              ((p.samples_per_buffer - p.offset % p.samples_per_buffer) * p.bytes_per_sample)⟩
          (by omega) hs hn0 hn1 (by omega)
        dsimp only at e1 e2 e3 e4 e5 ⊢
        simp only [enqueues_full, Nat.cast_add, Nat.cast_one]
        rw [e1, e2, e3, hn2, Int.emod_add_emod]
        have hspan : p.samples_per_buffer - p.offset % p.samples_per_buffer
            + write_span B count
                (i + (p.samples_per_buffer - p.offset % p.samples_per_buffer)) (cnt + 1)
                p.samples_per_buffer
                ((p.offset + (p.samples_per_buffer - p.offset % p.samples_per_buffer))
                  % (p.samples_per_buffer * B))
            = write_span B count i cnt p.samples_per_buffer p.offset := by
          unfold write_span
          rw [hn2, if_pos hcB]
          have hmul : ((B : Int) - cnt - 1) * p.samples_per_buffer
              = p.samples_per_buffer + ((B : Int) - (cnt + 1 : Nat) - 1) * p.samples_per_buffer := by
            push_cast; ring
          by_cases h2 : cnt + 1 < B
          · rw [if_pos h2, hmul]
            omega
          · rw [if_neg h2]
            have hB : (B : Int) - cnt - 1 = 0 := by omega
            rw [hB, zero_mul]
            omega
        refine ⟨by rw [← hspan]; ring, by rw [← hspan]; congr 1; ring, ?_, e4, e5⟩
        rw [← hspan]
        have : p.offset % p.samples_per_buffer
            + (p.samples_per_buffer - p.offset % p.samples_per_buffer
              + write_span B count
                (i + (p.samples_per_buffer - p.offset % p.samples_per_buffer)) (cnt + 1)
                p.samples_per_buffer
                ((p.offset + (p.samples_per_buffer - p.offset % p.samples_per_buffer))
                  % (p.samples_per_buffer * B)))
            = (0 + write_span B count
                (i + (p.samples_per_buffer - p.offset % p.samples_per_buffer)) (cnt + 1)
                p.samples_per_buffer
                ((p.offset + (p.samples_per_buffer - p.offset % p.samples_per_buffer))
                  % (p.samples_per_buffer * B))) + p.samples_per_buffer := by ring
        rw [this, Int.add_ediv_of_dvd_right (dvd_refl _), Int.ediv_self hs.ne']
      · rw [if_neg hfull]
        dsimp only
        have hX : 0 ≤ ((B : Int) - cnt - 1) * p.samples_per_buffer :=
          mul_nonneg (by omega) hs.le
        have hspan : write_span B count i cnt p.samples_per_buffer p.offset = count - i := by
          unfold write_span
          rw [if_pos hcB]
          omega
        rw [hspan]
        refine ⟨by ring, ?_, ?_, rfl, rfl⟩
        · exact (Int.emod_eq_of_lt (by omega) (by omega)).symm
        · simp only [enqueues]
          rw [Int.ediv_eq_zero_of_lt (by omega) (by omega)]
          rfl
    · rw [if_neg hc]
      dsimp only
      have hspan : write_span B count i cnt p.samples_per_buffer p.offset = 0 := by
        unfold write_span
        by_cases hcB : cnt < B
        · rw [if_pos hcB]
          have hX : 0 ≤ ((B : Int) - cnt - 1) * p.samples_per_buffer :=
            mul_nonneg (by omega) hs.le
          have : count - i = 0 := by
            have : ¬ i < count := fun h => hc ⟨h, hcB⟩
            omega
          omega
        · rw [if_neg hcB]
      rw [hspan]
      rw [add_zero, add_zero, add_zero, hr]
      exact ⟨rfl, (Int.emod_eq_of_lt h0 h1).symm, rfl, rfl, rfl⟩


/-! ## Sample slots and bytes -/

theorem memcpy_sample (mem src : Int → Nat) (bps : Nat) (off i n j b : Int)
    (hj0 : 0 ≤ j) (hj1 : j < n) (hb0 : 0 ≤ b) (hb1 : b < bps) :
    memcpy mem (off * bps) src (i * bps) (n * bps) ((off + j) * bps + b)
      = src ((i + j) * bps + b) := by
  have hbps : (0 : Int) ≤ bps := Int.ofNat_nonneg _
  have h1 : 0 ≤ j * bps := mul_nonneg hj0 hbps
  have h2 : (j + 1) * (bps : Int) ≤ n * bps := mul_le_mul_of_nonneg_right (by omega) hbps
  have e1 : (off + j) * (bps : Int) = off * bps + j * bps := by ring
  have e2 : (j + 1) * (bps : Int) = j * bps + bps := by ring
  have e3 : (i + j) * (bps : Int) = i * bps + j * bps := by ring
  unfold memcpy
  rw [if_pos ⟨by omega, by omega⟩]
  congr 1
  omega

/-- A copy of `n` samples changes no byte outside the `n` slots it fills. -/
theorem memcpy_other (mem src : Int → Nat) (bps : Nat) (off i n a : Int)
    (h : ∀ j b : Int, 0 ≤ j → j < n → 0 ≤ b → b < bps → a ≠ (off + j) * bps + b) :
    memcpy mem (off * bps) src (i * bps) (n * bps) a = mem a := by
  unfold memcpy
  rw [if_neg]
  rintro ⟨h1, h2⟩
  have hbps : (0 : Int) < bps := by
    rcases Nat.eq_zero_or_pos bps with h0 | h0
    · rw [h0] at h1 h2; simp at h1 h2; omega
    · exact_mod_cast h0
  have hd0 : 0 ≤ a - off * bps := by omega
  have hd1 : a - off * bps < n * bps := by omega
  have hq := Int.ediv_add_emod (a - off * bps) bps
  refine h ((a - off * bps) / bps) ((a - off * bps) % bps)
    (Int.ediv_nonneg hd0 hbps.le) (Int.ediv_lt_of_lt_mul hbps hd1)
    (Int.emod_nonneg _ hbps.ne') (Int.emod_lt_of_pos _ hbps) ?_
  have e1 : (off + (a - off * bps) / bps) * (bps : Int)
      = off * bps + bps * ((a - off * bps) / bps) := by ring
  omega

/-- Two byte offsets inside sample slots are equal only in the same slot. -/
theorem slot_unique (bps : Nat) (s s' b b' : Int) (hb0 : 0 ≤ b) (hb1 : b < bps)
    (hb0' : 0 ≤ b') (hb1' : b' < bps) (h : s * bps + b = s' * bps + b') : s = s' := by
  by_contra hne
  rcases lt_or_gt_of_ne hne with hlt | hgt
  · have : (s + 1) * (bps : Int) ≤ s' * bps :=
      mul_le_mul_of_nonneg_right (by omega) (by omega)
    have e : (s + 1) * (bps : Int) = s * bps + bps := by ring
    omega
  · have : (s' + 1) * (bps : Int) ≤ s * bps :=
      mul_le_mul_of_nonneg_right (by omega) (by omega)
    have e : (s' + 1) * (bps : Int) = s' * bps + bps := by ring
    omega

/-- Moving forward by less than a full turn of the ring changes the slot. -/
theorem emod_ne_of_lt (cap x d : Int) (hx0 : 0 ≤ x) (hx1 : x < cap) (hd0 : 0 < d)
    (hd1 : d < cap) : (x + d) % cap ≠ x := by
  intro h
  have hq := Int.ediv_add_emod (x + d) cap
  rw [h] at hq
  have hc : cap * ((x + d) / cap) = d := by omega
  rcases le_or_lt ((x + d) / cap) 0 with ht | ht
  · have : cap * ((x + d) / cap) ≤ 0 := mul_nonpos_of_nonneg_of_nonpos (by omega) ht
    omega
  · have : cap * 1 ≤ cap * ((x + d) / cap) := mul_le_mul_of_nonneg_left (by omega) (by omega)
    omega


/-! ## The closed form, step by step -/

theorem write_span_exit {B : Nat} {count i : Int} {cnt : Nat} {spb off : Int}
    (hs : 0 < spb) (hi : i ≤ count) (hc : ¬ (i < count ∧ cnt < B)) :
    write_span B count i cnt spb off = 0 := by
  unfold write_span
  by_cases hcB : cnt < B
  · rw [if_pos hcB]
    have hX : 0 ≤ ((B : Int) - cnt - 1) * spb := mul_nonneg (by omega) hs.le
    have hr1 : off % spb < spb := Int.emod_lt_of_pos _ hs
    have : ¬ i < count := fun h => hc ⟨h, hcB⟩
    omega
  · rw [if_neg hcB]

/-- The closed form on the branch of line 84: all the input that is left. -/
theorem write_span_short {B : Nat} {count i : Int} {cnt : Nat} {spb off : Int}
    (hs : 0 < spb) (hcB : cnt < B) (hp : ¬ count - i ≥ spb - off % spb) :
    write_span B count i cnt spb off = count - i := by
  unfold write_span
  rw [if_pos hcB]
  have hX : 0 ≤ ((B : Int) - cnt - 1) * spb := mul_nonneg (by omega) hs.le
  omega

/-- The closed form on the branch of line 74: the room of the current frame and
the closed form of the rest of the run, which starts frame-aligned. -/
theorem write_span_full {B : Nat} {count i : Int} {cnt : Nat} {spb off : Int}
    (hcB : cnt < B) (hfull : count - i ≥ spb - off % spb) (off1 : Int)
    (hn2 : off1 % spb = 0) :
    write_span B count i cnt spb off
      = spb - off % spb + write_span B count (i + (spb - off % spb)) (cnt + 1) spb off1 := by
  unfold write_span
  rw [hn2, if_pos hcB]
  have hmul : ((B : Int) - cnt - 1) * spb
      = spb + ((B : Int) - (cnt + 1 : Nat) - 1) * spb := by
    push_cast; ring
  by_cases h2 : cnt + 1 < B
  · rw [if_pos h2, hmul]
    omega
  · rw [if_neg h2]
    have hB : (B : Int) - cnt - 1 = 0 := by omega
    rw [hB, zero_mul]
    omega

/-- The closed form lies between 0 and the input that is left, and is at most the
capacity of the ring. -/
theorem write_span_bound {B : Nat} {count i : Int} {cnt : Nat} {spb off : Int}
    (hs : 0 < spb) (hi : i ≤ count) :
    0 ≤ write_span B count i cnt spb off ∧ write_span B count i cnt spb off ≤ count - i ∧
    write_span B count i cnt spb off ≤ spb * B := by
  have hr0 : 0 ≤ off % spb := Int.emod_nonneg _ hs.ne'
  have hr1 : off % spb < spb := Int.emod_lt_of_pos _ hs
  unfold write_span
  by_cases hcB : cnt < B
  · rw [if_pos hcB]
    have hX : 0 ≤ ((B : Int) - cnt - 1) * spb := mul_nonneg (by omega) hs.le
    have hY : 0 ≤ (cnt : Int) * spb := mul_nonneg (by omega) hs.le
    have e : spb * (B : Int) = spb + ((B : Int) - cnt - 1) * spb + cnt * spb := by ring
    omega
  · rw [if_neg hcB]
    have hY : 0 ≤ spb * (B : Int) := mul_nonneg hs.le (by omega)
    exact ⟨le_refl _, by omega, hY⟩


/-- Content of the backing store after the loop when every submission
succeeds: the consumed samples lie in consecutive slots of the ring, starting
at the old write offset, and nothing else is touched. -/
theorem write_loop_mem (B : Nat) (Q : BufferQueue) (src : Int → Nat) (count : Int)
    (hQ : ∀ k, Q.Enqueue k = SL_RESULT_SUCCESS) :
    ∀ (fuel k : Nat) (i : Int) (cnt : Nat) (p : opensles_player_t),
      B - cnt ≤ fuel → 0 < p.samples_per_buffer → 0 ≤ p.offset →
      p.offset < p.samples_per_buffer * B → i ≤ count →
      (∀ j b : Int, 0 ≤ j → j < write_span B count i cnt p.samples_per_buffer p.offset →
        0 ≤ b → b < p.bytes_per_sample →
        (write_loop B Q src count fuel k i cnt p).player.ptr
            ((p.offset + j) % (p.samples_per_buffer * B) * p.bytes_per_sample + b)
          = src ((i + j) * p.bytes_per_sample + b)) ∧
      (∀ a : Int,
        (∀ j b : Int, 0 ≤ j → j < write_span B count i cnt p.samples_per_buffer p.offset →
          0 ≤ b → b < p.bytes_per_sample →
          a ≠ (p.offset + j) % (p.samples_per_buffer * B) * p.bytes_per_sample + b) →
        (write_loop B Q src count fuel k i cnt p).player.ptr a = p.ptr a) := by
  intro fuel
  induction fuel with
  | zero =>
    intro k i cnt p hf hs h0 h1 hi
    have hc : ¬ cnt < B := by omega
    have hw : write_loop B Q src count 0 k i cnt p = ⟨i, p, []⟩ := rfl
    have hsp : write_span B count i cnt p.samples_per_buffer p.offset = 0 := if_neg hc
    rw [hw, hsp]
    exact ⟨fun j b hj0 hj1 => by omega, fun a _ => rfl⟩
  | succ fuel ih =>
    intro k i cnt p hf hs h0 h1 hi
    obtain ⟨ht, hr0, hr1, hle, ht2, hn0, hn1, hn2⟩ := frame_arith hs h0 h1
    simp only [write_loop]
    by_cases hc : i < count ∧ cnt < B
    · rw [if_pos hc]
      obtain ⟨hic, hcB⟩ := hc
      simp only [ht, ht2, hQ, ne_eq, not_true_eq_false, if_false]
      by_cases hfull : count - i ≥ p.samples_per_buffer - p.offset % p.samples_per_buffer
      · rw [if_pos hfull]
        obtain ⟨m1, m2⟩ := ih (k + 1)
          (i + (p.samples_per_buffer - p.offset % p.samples_per_buffer)) (cnt + 1)
          ⟨p.bytes_per_sample, p.samples_per_buffer,
            (p.offset + (p.samples_per_buffer - p.offset % p.samples_per_buffer))
              % (p.samples_per_buffer * B),
            memcpy p.ptr (p.offset * p.bytes_per_sample) src (i * p.bytes_per_sample)
              ((p.samples_per_buffer - p.offset % p.samples_per_buffer) * p.bytes_per_sample)⟩
          (by omega) hs hn0 hn1 (by omega)
        have hspan := write_span_full hcB hfull _ hn2
        obtain ⟨hb0, hb1, hb2⟩ := @write_span_bound B count i cnt p.samples_per_buffer p.offset hs hi
        obtain ⟨hc0, hc1, hc2⟩ := @write_span_bound B count
          (i + (p.samples_per_buffer - p.offset % p.samples_per_buffer)) (cnt + 1)
          p.samples_per_buffer
          ((p.offset + (p.samples_per_buffer - p.offset % p.samples_per_buffer))
              % (p.samples_per_buffer * B)) hs (by omega)
        dsimp only at m1 m2 ⊢
        rw [hspan]
        rw [hspan] at hb2
        generalize write_span B count
          (i + (p.samples_per_buffer - p.offset % p.samples_per_buffer)) (cnt + 1)
          p.samples_per_buffer
          ((p.offset + (p.samples_per_buffer - p.offset % p.samples_per_buffer))
              % (p.samples_per_buffer * B)) = w at m1 m2 hb2 hc0 hc1 hc2 ⊢
        generalize hR : (write_loop B Q src count fuel (k + 1)
          (i + (p.samples_per_buffer - p.offset % p.samples_per_buffer)) (cnt + 1)
          ⟨p.bytes_per_sample, p.samples_per_buffer,
            (p.offset + (p.samples_per_buffer - p.offset % p.samples_per_buffer))
              % (p.samples_per_buffer * B),
            memcpy p.ptr (p.offset * p.bytes_per_sample) src (i * p.bytes_per_sample)
              ((p.samples_per_buffer - p.offset % p.samples_per_buffer)
                * p.bytes_per_sample)⟩).player.ptr = mem at m1 m2 ⊢
        have key : ∀ j : Int, 0 ≤ j →
            ((p.offset + (p.samples_per_buffer - p.offset % p.samples_per_buffer))
              % (p.samples_per_buffer * B) + j) % (p.samples_per_buffer * B)
            = (p.offset + ((p.samples_per_buffer - p.offset % p.samples_per_buffer) + j))
              % (p.samples_per_buffer * B) := by
          intro j _
          rw [Int.emod_add_emod, add_assoc]
        have near : ∀ j : Int, 0 ≤ j →
            j < p.samples_per_buffer - p.offset % p.samples_per_buffer →
            (p.offset + j) % (p.samples_per_buffer * B) = p.offset + j := by
          intro j hj0 hj1
          exact Int.emod_eq_of_lt (by omega) (by omega)
        constructor
        · intro j b hj0 hj1 hB0 hB1
          by_cases hj : j < p.samples_per_buffer - p.offset % p.samples_per_buffer
          · rw [near j hj0 hj, m2, memcpy_sample _ _ _ _ _ _ _ _ hj0 hj hB0 hB1]
            intro j1 b1 hj10 hj11 hb10 hb11 heq
            have hs' := slot_unique _ _ _ _ _ hB0 hB1 hb10 hb11 heq
            rw [key j1 hj10] at hs'
            have e : p.offset + (p.samples_per_buffer - p.offset % p.samples_per_buffer + j1)
                = (p.offset + j)
                  + (p.samples_per_buffer - p.offset % p.samples_per_buffer + j1 - j) := by
              ring
            rw [e] at hs'
            exact emod_ne_of_lt _ _ _ (by omega) (by omega) (by omega) (by omega) hs'.symm
          · have := m1 (j - (p.samples_per_buffer - p.offset % p.samples_per_buffer)) b
              (by omega) (by omega) hB0 hB1
            rw [key _ (by omega)] at this
            have e1 : p.samples_per_buffer - p.offset % p.samples_per_buffer
                + (j - (p.samples_per_buffer - p.offset % p.samples_per_buffer)) = j := by
              ring
            have e2 : i + (p.samples_per_buffer - p.offset % p.samples_per_buffer)
                + (j - (p.samples_per_buffer - p.offset % p.samples_per_buffer)) = i + j := by
              ring
            rw [e1, e2] at this
            exact this
        · intro a ha
          rw [m2, memcpy_other]
          · intro j b hj0 hj1 hB0 hB1
            have := ha j b hj0 (by omega) hB0 hB1
            rwa [near j hj0 hj1] at this
          · intro j1 b1 hj10 hj11 hb10 hb11
            have := ha (p.samples_per_buffer - p.offset % p.samples_per_buffer + j1) b1
              (by omega) (by omega) hb10 hb11
            rwa [← key j1 hj10] at this
      · rw [if_neg hfull]
        dsimp only
        rw [write_span_short hs hcB hfull]
        have near : ∀ j : Int, 0 ≤ j → j < count - i →
            (p.offset + j) % (p.samples_per_buffer * B) = p.offset + j := by
          intro j hj0 hj1
          exact Int.emod_eq_of_lt (by omega) (by omega)
        constructor
        · intro j b hj0 hj1 hB0 hB1
          rw [near j hj0 hj1, memcpy_sample _ _ _ _ _ _ _ _ hj0 hj1 hB0 hB1]
        · intro a ha
          rw [memcpy_other]
          intro j b hj0 hj1 hB0 hB1
          have := ha j b hj0 hj1 hB0 hB1
          rwa [near j hj0 hj1] at this
    · rw [if_neg hc, write_span_exit hs hi hc]
      exact ⟨fun j b hj0 hj1 => by omega, fun a _ => rfl⟩


/-! ## Facts that hold whatever the engine answers -/

theorem write_loop_exit (B : Nat) (Q : BufferQueue) (src : Int → Nat) (count : Int)
    (fuel k : Nat) (i : Int) (cnt : Nat) (p : opensles_player_t)
    (hc : ¬ (i < count ∧ cnt < B)) :
    write_loop B Q src count fuel k i cnt p = ⟨i, p, []⟩ := by
  cases fuel with
  | zero => rfl
  | succ fuel => simp only [write_loop]; rw [if_neg hc]

/-- The iteration bound passed by `opensles_write` never cuts the loop short:
any bound of at least `OPENSLES_BUFFERS - state.count` gives the same run. -/
theorem write_loop_fuel (B : Nat) (Q : BufferQueue) (src : Int → Nat) (count : Int) :
    ∀ (fuel fuel' k : Nat) (i : Int) (cnt : Nat) (p : opensles_player_t),
      B - cnt ≤ fuel → B - cnt ≤ fuel' →
      write_loop B Q src count fuel k i cnt p = write_loop B Q src count fuel' k i cnt p := by
  intro fuel
  induction fuel with
  | zero =>
    intro fuel' k i cnt p hf _
    rw [write_loop_exit B Q src count 0 k i cnt p (by omega),
      write_loop_exit B Q src count fuel' k i cnt p (by omega)]
  | succ fuel ih =>
    intro fuel' k i cnt p hf hf'
    by_cases hc : i < count ∧ cnt < B
    · cases fuel' with
      | zero => omega
      | succ fuel' =>
        simp only [write_loop]
        rw [ih fuel' (k + 1) _ (cnt + 1) _ (by omega) (by omega)]
    · rw [write_loop_exit B Q src count _ k i cnt p hc,
        write_loop_exit B Q src count fuel' k i cnt p hc]

/-- The loop submits at most one frame for every slot that was free at entry. -/
theorem write_loop_enqueues_le (B : Nat) (Q : BufferQueue) (src : Int → Nat) (count : Int) :
    ∀ (fuel k : Nat) (i : Int) (cnt : Nat) (p : opensles_player_t),
      enqueues (write_loop B Q src count fuel k i cnt p).trace ≤ B - cnt := by
  intro fuel
  induction fuel with
  | zero => intro k i cnt p; exact Nat.zero_le _
  | succ fuel ih =>
    intro k i cnt p
    simp only [write_loop]
    split
    · rename_i hc
      split
      · split
        · show 1 ≤ B - cnt
          omega
        · dsimp only
          rw [enqueues_full]
          have := ih (k + 1)
            (i + (p.samples_per_buffer - Int.tmod p.offset p.samples_per_buffer)) (cnt + 1)
            { p with
              ptr := memcpy p.ptr (p.offset * p.bytes_per_sample) src (i * p.bytes_per_sample)
                ((p.samples_per_buffer - Int.tmod p.offset p.samples_per_buffer)
                  * p.bytes_per_sample)
              offset := Int.tmod
                (p.offset + (p.samples_per_buffer - Int.tmod p.offset p.samples_per_buffer))
                (p.samples_per_buffer * B) }
          omega
      · exact Nat.zero_le _
    · exact Nat.zero_le _


/-- The loop keeps the write offset inside the backing store, makes every copy
inside the backing store and never fails the assertion of line 88. -/
theorem write_loop_safe (B : Nat) (Q : BufferQueue) (src : Int → Nat) (count : Int) :
    ∀ (fuel k : Nat) (i : Int) (cnt : Nat) (p : opensles_player_t),
      0 < p.samples_per_buffer → 0 ≤ p.offset → p.offset < p.samples_per_buffer * B →
      (0 ≤ (write_loop B Q src count fuel k i cnt p).player.offset ∧
        (write_loop B Q src count fuel k i cnt p).player.offset < p.samples_per_buffer * B) ∧
      (write_loop B Q src count fuel k i cnt p).player.samples_per_buffer
        = p.samples_per_buffer ∧
      (write_loop B Q src count fuel k i cnt p).player.bytes_per_sample
        = p.bytes_per_sample ∧
      (∀ dst s n : Int, Event.memcpy dst s n ∈ (write_loop B Q src count fuel k i cnt p).trace →
        0 ≤ dst ∧ 0 ≤ n ∧ dst + n ≤ (B : Int) * p.samples_per_buffer * p.bytes_per_sample) ∧
      (∀ ok : Bool, Event.assert_offset ok ∈ (write_loop B Q src count fuel k i cnt p).trace →
        ok = true) := by
  intro fuel
  induction fuel with
  | zero =>
    intro k i cnt p hs h0 h1
    exact ⟨⟨h0, h1⟩, rfl, rfl, fun _ _ _ h => (by cases h), fun _ h => (by cases h)⟩
  | succ fuel ih =>
    intro k i cnt p hs h0 h1
    obtain ⟨ht, hr0, hr1, hle, ht2, hn0, hn1, hn2⟩ := frame_arith hs h0 h1
    have hbps : (0 : Int) ≤ p.bytes_per_sample := Int.ofNat_nonneg _
    have hd0 : 0 ≤ p.offset * p.bytes_per_sample := mul_nonneg h0 hbps
    have hsize : (B : Int) * p.samples_per_buffer * p.bytes_per_sample
        = p.samples_per_buffer * B * p.bytes_per_sample := by ring
    simp only [write_loop]
    by_cases hc : i < count ∧ cnt < B
    · rw [if_pos hc]
      obtain ⟨hic, hcB⟩ := hc
      simp only [ht, ht2]
      have hfree : 0 ≤ (p.samples_per_buffer - p.offset % p.samples_per_buffer)
          * p.bytes_per_sample := mul_nonneg (by omega) hbps
      have hend : p.offset * p.bytes_per_sample
          + (p.samples_per_buffer - p.offset % p.samples_per_buffer) * p.bytes_per_sample
          ≤ (B : Int) * p.samples_per_buffer * p.bytes_per_sample := by
        rw [hsize, ← add_mul]
        exact mul_le_mul_of_nonneg_right hle hbps
      by_cases hfull : count - i ≥ p.samples_per_buffer - p.offset % p.samples_per_buffer
      · rw [if_pos hfull]
        by_cases hret : SL_RESULT_SUCCESS ≠ Q.Enqueue k
        · rw [if_pos hret]
          refine ⟨⟨h0, h1⟩, rfl, rfl, ?_, ?_⟩
          · intro dst s n hmem
            simp only [List.mem_cons, Event.memcpy.injEq, List.mem_singleton, reduceCtorEq,
              or_false, List.not_mem_nil] at hmem
            obtain ⟨rfl, -, rfl⟩ := hmem
            exact ⟨hd0, hfree, hend⟩
          · intro ok hmem
            simp only [List.mem_cons, reduceCtorEq, List.mem_singleton, or_self,
              List.not_mem_nil] at hmem
        · rw [if_neg hret]
          obtain ⟨⟨g0, g1⟩, g2, g3, g4, g5⟩ := ih (k + 1)
            (i + (p.samples_per_buffer - p.offset % p.samples_per_buffer)) (cnt + 1)
            ⟨p.bytes_per_sample, p.samples_per_buffer,
              (p.offset + (p.samples_per_buffer - p.offset % p.samples_per_buffer))
                % (p.samples_per_buffer * B),
              memcpy p.ptr (p.offset * p.bytes_per_sample) src (i * p.bytes_per_sample)
                ((p.samples_per_buffer - p.offset % p.samples_per_buffer)
                  * p.bytes_per_sample)⟩
            hs hn0 hn1
          dsimp only at g0 g1 g2 g3 g4 g5 ⊢
          refine ⟨⟨g0, g1⟩, g2, g3, ?_, ?_⟩
          · intro dst s n hmem
            simp only [List.cons_append, List.nil_append, List.mem_cons, Event.memcpy.injEq,
              reduceCtorEq, false_or] at hmem
            rcases hmem with ⟨rfl, -, rfl⟩ | hmem
            · exact ⟨hd0, hfree, hend⟩
            · exact g4 dst s n hmem
          · intro ok hmem
            simp only [List.cons_append, List.nil_append, List.mem_cons, reduceCtorEq,
              false_or] at hmem
            exact g5 ok hmem
      · rw [if_neg hfull]
        dsimp only
        have hcnt : 0 ≤ (count - i) * p.bytes_per_sample := mul_nonneg (by omega) hbps
        have hend' : p.offset * p.bytes_per_sample + (count - i) * p.bytes_per_sample
            ≤ (B : Int) * p.samples_per_buffer * p.bytes_per_sample := by
          rw [hsize, ← add_mul]
          exact mul_le_mul_of_nonneg_right (by omega) hbps
        refine ⟨⟨by omega, by omega⟩, rfl, rfl, ?_, ?_⟩
        · intro dst s n hmem
          simp only [List.mem_cons, Event.memcpy.injEq, List.mem_singleton, reduceCtorEq,
            or_false, List.not_mem_nil] at hmem
          obtain ⟨rfl, -, rfl⟩ := hmem
          exact ⟨hd0, hcnt, hend'⟩
        · intro ok hmem
          simp only [List.mem_cons, reduceCtorEq, List.mem_singleton, Event.assert_offset.injEq,
            false_or, List.not_mem_nil, or_false] at hmem
          rw [hmem]
          exact decide_eq_true (by omega)
    · rw [if_neg hc]
      exact ⟨⟨h0, h1⟩, rfl, rfl, fun _ _ _ h => (by cases h), fun _ h => (by cases h)⟩


/-- The `-ret` of line 78, returned as `int`, is the negative of a positive
error code below `2 ^ 31`. -/
theorem int_of_neg_u32 (e : Nat) (h0 : 0 < e) (h1 : e < 2 ^ 31) :
    int_of_u32 (neg_u32 e) = -(e : Int) := by
  unfold int_of_u32 neg_u32
  norm_num at h1 ⊢
  have e1 : e % 4294967296 = e := Nat.mod_eq_of_lt (by omega)
  rw [e1]
  have e2 : (4294967296 - e) % 4294967296 = 4294967296 - e := Nat.mod_eq_of_lt (by omega)
  rw [e2, if_neg (by omega)]
  omega

/-- Shape of every submission: the frame handed over is one whole slot of the
backing store and the copy made just before it ends on the last byte of that
slot. -/
theorem write_loop_frames (B : Nat) (Q : BufferQueue) (src : Int → Nat) (count : Int) :
    ∀ (fuel k : Nat) (i : Int) (cnt : Nat) (p : opensles_player_t),
      0 < p.samples_per_buffer → 0 ≤ p.offset → p.offset < p.samples_per_buffer * B →
      ∀ (pre post : List Event) (buf size : Int) (ret : SLresult),
        (write_loop B Q src count fuel k i cnt p).trace
          = pre ++ Event.Enqueue buf size ret :: post →
        ∃ (pre' : List Event) (dst s n f : Int),
          pre = pre' ++ [Event.memcpy dst s n] ∧ 0 ≤ f ∧ f < B ∧
          buf = f * p.samples_per_buffer * p.bytes_per_sample ∧
          size = p.samples_per_buffer * p.bytes_per_sample ∧
          buf ≤ dst ∧ (p.bytes_per_sample : Int) ≤ n ∧ dst + n = buf + size := by
  intro fuel
  induction fuel with
  | zero =>
    intro k i cnt p hs h0 h1 pre post buf size ret h
    exact absurd h (by simp [write_loop])
  | succ fuel ih =>
    intro k i cnt p hs h0 h1 pre post buf size ret h
    obtain ⟨ht, hr0, hr1, hle, ht2, hn0, hn1, hn2⟩ := frame_arith hs h0 h1
    have hbps : (0 : Int) ≤ p.bytes_per_sample := Int.ofNat_nonneg _
    have hq := Int.ediv_add_emod p.offset p.samples_per_buffer
    have hf0 : 0 ≤ p.offset / p.samples_per_buffer := Int.ediv_nonneg h0 hs.le
    have hf1 : p.offset / p.samples_per_buffer < B :=
      Int.ediv_lt_of_lt_mul hs (by rw [mul_comm]; exact h1)
    have hbuf : (p.offset - p.offset % p.samples_per_buffer) * p.bytes_per_sample
        = p.offset / p.samples_per_buffer * p.samples_per_buffer * p.bytes_per_sample := by
      congr 1
      rw [mul_comm]
      omega
    have hfirst : ∃ (pre' : List Event) (dst s n f : Int),
        [Event.memcpy (p.offset * p.bytes_per_sample) (i * p.bytes_per_sample)
          ((p.samples_per_buffer - p.offset % p.samples_per_buffer) * p.bytes_per_sample)]
          = pre' ++ [Event.memcpy dst s n] ∧ 0 ≤ f ∧ f < B ∧
        (p.offset - p.offset % p.samples_per_buffer) * p.bytes_per_sample
          = f * p.samples_per_buffer * p.bytes_per_sample ∧
        (p.bytes_per_sample : Int) * p.samples_per_buffer
          = p.samples_per_buffer * p.bytes_per_sample ∧
        (p.offset - p.offset % p.samples_per_buffer) * p.bytes_per_sample
          ≤ dst ∧ (p.bytes_per_sample : Int) ≤ n ∧
        dst + n = (p.offset - p.offset % p.samples_per_buffer) * p.bytes_per_sample
          + (p.bytes_per_sample : Int) * p.samples_per_buffer := by
      refine ⟨[], _, _, _, p.offset / p.samples_per_buffer, rfl, hf0, hf1, hbuf, mul_comm _ _,
        mul_le_mul_of_nonneg_right (by omega) hbps, ?_, by ring⟩
      have := mul_le_mul_of_nonneg_right
        (show 1 ≤ p.samples_per_buffer - p.offset % p.samples_per_buffer by omega) hbps
      rwa [one_mul] at this
    simp only [write_loop] at h
    by_cases hc : i < count ∧ cnt < B
    · rw [if_pos hc] at h
      simp only [ht, ht2] at h
      by_cases hfull : count - i ≥ p.samples_per_buffer - p.offset % p.samples_per_buffer
      · rw [if_pos hfull] at h
        by_cases hret : SL_RESULT_SUCCESS ≠ Q.Enqueue k
        · rw [if_pos hret] at h
          rcases pre with _ | ⟨x, _ | ⟨y, pre1⟩⟩
          · simp at h
          · simp only [List.cons_append, List.nil_append, List.cons.injEq,
              Event.Enqueue.injEq] at h
            obtain ⟨rfl, ⟨rfl, rfl, -⟩, -⟩ := h
            exact hfirst
          · simp at h
        · rw [if_neg hret] at h
          dsimp only at h
          rcases pre with _ | ⟨x, _ | ⟨y, pre1⟩⟩
          · simp at h
          · simp only [List.cons_append, List.nil_append, List.cons.injEq,
              Event.Enqueue.injEq] at h
            obtain ⟨rfl, ⟨rfl, rfl, -⟩, -⟩ := h
            exact hfirst
          · simp only [List.cons_append, List.nil_append, List.cons.injEq] at h
            obtain ⟨-, -, h⟩ := h
            obtain ⟨pre', dst, s, n, f, g1, g2⟩ := ih (k + 1)
              (i + (p.samples_per_buffer - p.offset % p.samples_per_buffer)) (cnt + 1)
              ⟨p.bytes_per_sample, p.samples_per_buffer,
                (p.offset + (p.samples_per_buffer - p.offset % p.samples_per_buffer))
                  % (p.samples_per_buffer * B),
                memcpy p.ptr (p.offset * p.bytes_per_sample) src (i * p.bytes_per_sample)
                  ((p.samples_per_buffer - p.offset % p.samples_per_buffer)
                    * p.bytes_per_sample)⟩
              hs hn0 hn1 pre1 post buf size ret h
            dsimp only at g2
            refine ⟨x :: y :: pre', dst, s, n, f, ?_, g2⟩
            rw [g1]
            rfl
      · rw [if_neg hfull] at h
        rcases pre with _ | ⟨x, _ | ⟨y, pre1⟩⟩ <;> simp at h
    · rw [if_neg hc] at h
      simp at h


/-- A failed submission ends the run: it is the last event of the trace, the
result is the converted error code, and the write offset is still the one
the failed frame's chunk was copied to. -/
theorem write_loop_failure (B : Nat) (Q : BufferQueue) (src : Int → Nat) (count : Int) :
    ∀ (fuel k : Nat) (i : Int) (cnt : Nat) (p : opensles_player_t)
      (buf size : Int) (ret : SLresult),
      Event.Enqueue buf size ret ∈ (write_loop B Q src count fuel k i cnt p).trace →
      ret ≠ SL_RESULT_SUCCESS →
      (write_loop B Q src count fuel k i cnt p).ret
        = (if ret > 0 then int_of_u32 (neg_u32 ret) else int_of_u32 ret) ∧
      ∃ (pre : List Event) (dst s n : Int),
        (write_loop B Q src count fuel k i cnt p).trace
          = pre ++ [Event.memcpy dst s n, Event.Enqueue buf size ret] ∧
        (∀ (b z : Int) (r : SLresult), Event.Enqueue b z r ∈ pre → r = SL_RESULT_SUCCESS) ∧
        dst = (write_loop B Q src count fuel k i cnt p).player.offset
          * (write_loop B Q src count fuel k i cnt p).player.bytes_per_sample ∧
        buf = ((write_loop B Q src count fuel k i cnt p).player.offset
            - Int.tmod (write_loop B Q src count fuel k i cnt p).player.offset
                (write_loop B Q src count fuel k i cnt p).player.samples_per_buffer)
          * (write_loop B Q src count fuel k i cnt p).player.bytes_per_sample ∧
        (enqueues pre = 0 →
          (write_loop B Q src count fuel k i cnt p).player.offset = p.offset) := by
  intro fuel
  induction fuel with
  | zero =>
    intro k i cnt p buf size ret h
    exact absurd h (by simp [write_loop])
  | succ fuel ih =>
    intro k i cnt p buf size ret h hne
    simp only [write_loop] at h ⊢
    by_cases hc : i < count ∧ cnt < B
    · rw [if_pos hc] at h ⊢
      by_cases hfull : count - i ≥ p.samples_per_buffer - Int.tmod p.offset p.samples_per_buffer
      · rw [if_pos hfull] at h ⊢
        by_cases hret : SL_RESULT_SUCCESS ≠ Q.Enqueue k
        · rw [if_pos hret] at h ⊢
          simp only [List.mem_cons, reduceCtorEq, Event.Enqueue.injEq, false_or,
            List.not_mem_nil, or_false] at h
          obtain ⟨rfl, rfl, rfl⟩ := h
          refine ⟨rfl, [], _, _, _, rfl, ?_, rfl, rfl, fun _ => rfl⟩
          intro b z r hm
          cases hm
        · rw [if_neg hret] at h ⊢
          have hok : Q.Enqueue k = SL_RESULT_SUCCESS := by
            by_contra hh
            exact hret (fun e => hh e.symm)
          dsimp only at h ⊢
          simp only [List.cons_append, List.nil_append, List.mem_cons, reduceCtorEq,
            Event.Enqueue.injEq, false_or] at h
          rcases h with ⟨-, -, hr⟩ | h
          · exact absurd (hr.trans hok) hne
          · obtain ⟨g1, pre, dst, s, n, g2, g3, g4, g5, -⟩ := ih (k + 1) _ (cnt + 1) _
              buf size ret h hne
            refine ⟨g1,
              [Event.memcpy (p.offset * p.bytes_per_sample) (i * p.bytes_per_sample)
                  ((p.samples_per_buffer - Int.tmod p.offset p.samples_per_buffer)
                    * p.bytes_per_sample),
                Event.Enqueue
                  ((p.offset - Int.tmod p.offset p.samples_per_buffer) * p.bytes_per_sample)
                  (p.bytes_per_sample * p.samples_per_buffer) (Q.Enqueue k)] ++ pre,
              dst, s, n, ?_, ?_, g4, g5, ?_⟩
            · rw [g2, List.append_assoc]
            · intro b z r hm
              simp only [List.cons_append, List.nil_append, List.mem_cons, reduceCtorEq,
                Event.Enqueue.injEq, false_or] at hm
              rcases hm with ⟨-, -, hr⟩ | hm
              · exact hr.trans hok
              · exact g3 b z r hm
            · intro h0
              rw [enqueues_full] at h0
              omega
      · rw [if_neg hfull] at h
        simp at h
    · rw [if_neg hc] at h
      simp at h


/-- An engine whose submissions were all accepted in a run could as well have
been the engine that accepts everything: the run is the same. -/
theorem write_loop_accepting (B : Nat) (Q : BufferQueue) (src : Int → Nat) (count : Int) :
    ∀ (fuel k : Nat) (i : Int) (cnt : Nat) (p : opensles_player_t),
      (∀ (b z : Int) (r : SLresult),
        Event.Enqueue b z r ∈ (write_loop B Q src count fuel k i cnt p).trace →
        r = SL_RESULT_SUCCESS) →
      write_loop B Q src count fuel k i cnt p
        = write_loop B ⟨Q.GetState, fun _ => SL_RESULT_SUCCESS⟩ src count fuel k i cnt p := by
  intro fuel
  induction fuel with
  | zero => intro k i cnt p _; rfl
  | succ fuel ih =>
    intro k i cnt p h
    simp only [write_loop] at h ⊢
    by_cases hc : i < count ∧ cnt < B
    · simp only [if_pos hc] at h ⊢
      by_cases hfull : count - i ≥ p.samples_per_buffer - Int.tmod p.offset p.samples_per_buffer
      · simp only [if_pos hfull] at h ⊢
        have hok : Q.Enqueue k = SL_RESULT_SUCCESS := by
          by_cases hret : SL_RESULT_SUCCESS ≠ Q.Enqueue k
          · rw [if_pos hret] at h
            exact h _ _ _ (List.mem_cons_of_mem _ (List.mem_cons_self _ _))
          · by_contra hh
            exact hret (fun e => hh e.symm)
        have hno : ¬ SL_RESULT_SUCCESS ≠ SL_RESULT_SUCCESS := fun hh => hh rfl
        rw [hok] at h ⊢
        simp only [if_neg hno] at h ⊢
        rw [ih (k + 1) _ (cnt + 1) _ (fun b z r hm => h b z r
          (List.mem_cons_of_mem _ (List.mem_cons_of_mem _ hm)))]
      · simp only [if_neg hfull]
    · simp only [if_neg hc]

/-- Every submission of a run against an engine that accepts everything is
recorded as accepted. -/
theorem write_loop_accepted (B : Nat) (Q : BufferQueue) (src : Int → Nat) (count : Int)
    (hQ : ∀ k, Q.Enqueue k = SL_RESULT_SUCCESS) :
    ∀ (fuel k : Nat) (i : Int) (cnt : Nat) (p : opensles_player_t) (b z : Int) (r : SLresult),
      Event.Enqueue b z r ∈ (write_loop B Q src count fuel k i cnt p).trace →
      r = SL_RESULT_SUCCESS := by
  intro fuel
  induction fuel with
  | zero =>
    intro k i cnt p b z r hm
    exact absurd hm (by simp [write_loop])
  | succ fuel ih =>
    intro k i cnt p b z r hm
    simp only [write_loop] at hm
    by_cases hc : i < count ∧ cnt < B
    · rw [if_pos hc] at hm
      by_cases hfull : count - i ≥ p.samples_per_buffer - Int.tmod p.offset p.samples_per_buffer
      · have hno : ¬ SL_RESULT_SUCCESS ≠ SL_RESULT_SUCCESS := fun hh => hh rfl
        rw [if_pos hfull, hQ k, if_neg hno] at hm
        simp only [List.cons_append, List.nil_append, List.mem_cons, reduceCtorEq,
          Event.Enqueue.injEq, false_or] at hm
        rcases hm with ⟨-, -, hr⟩ | hm
        · exact hr
        · exact ih (k + 1) _ (cnt + 1) _ b z r hm
      · rw [if_neg hfull] at hm
        simp at hm
    · rw [if_neg hc] at hm
      simp at hm

/-- What follows a copy: either the submission of the frame the copy has
completed, or, when the copy ends at least one sample short of the end of its
frame, the assertion of line 88 and the end of the run. -/
theorem write_loop_copies (B : Nat) (Q : BufferQueue) (src : Int → Nat) (count : Int) :
    ∀ (fuel k : Nat) (i : Int) (cnt : Nat) (p : opensles_player_t),
      0 < p.samples_per_buffer → 0 ≤ p.offset → p.offset < p.samples_per_buffer * B →
      ∀ (pre post : List Event) (dst s n : Int),
        (write_loop B Q src count fuel k i cnt p).trace = pre ++ Event.memcpy dst s n :: post →
        (∃ (buf size : Int) (ret : SLresult) (post' : List Event),
          post = Event.Enqueue buf size ret :: post') ∨
        (post = [Event.assert_offset true] ∧
          ∃ f : Int, 0 ≤ f ∧ f < B ∧
            f * p.samples_per_buffer * p.bytes_per_sample ≤ dst ∧
            dst + n + p.bytes_per_sample
              ≤ (f + 1) * p.samples_per_buffer * p.bytes_per_sample) := by
  intro fuel
  induction fuel with
  | zero =>
    intro k i cnt p hs h0 h1 pre post dst s n h
    exact absurd h (by simp [write_loop])
  | succ fuel ih =>
    intro k i cnt p hs h0 h1 pre post dst s n h
    obtain ⟨ht, hr0, hr1, hle, ht2, hn0, hn1, hn2⟩ := frame_arith hs h0 h1
    have hbps : (0 : Int) ≤ p.bytes_per_sample := Int.ofNat_nonneg _
    have hq := Int.ediv_add_emod p.offset p.samples_per_buffer
    have hf0 : 0 ≤ p.offset / p.samples_per_buffer := Int.ediv_nonneg h0 hs.le
    have hf1 : p.offset / p.samples_per_buffer < B :=
      Int.ediv_lt_of_lt_mul hs (by rw [mul_comm]; exact h1)
    simp only [write_loop] at h
    by_cases hc : i < count ∧ cnt < B
    · rw [if_pos hc] at h
      simp only [ht, ht2] at h
      by_cases hfull : count - i ≥ p.samples_per_buffer - p.offset % p.samples_per_buffer
      · rw [if_pos hfull] at h
        by_cases hret : SL_RESULT_SUCCESS ≠ Q.Enqueue k
        · rw [if_pos hret] at h
          rcases pre with _ | ⟨x, _ | ⟨y, pre1⟩⟩
          · simp only [List.nil_append, List.cons.injEq] at h
            exact Or.inl ⟨_, _, _, _, h.2.symm⟩
          · simp at h
          · simp at h
        · rw [if_neg hret] at h
          dsimp only at h
          rcases pre with _ | ⟨x, _ | ⟨y, pre1⟩⟩
          · simp only [List.nil_append, List.cons_append, List.cons.injEq] at h
            exact Or.inl ⟨_, _, _, _, h.2.symm⟩
          · simp at h
          · simp only [List.cons_append, List.nil_append, List.cons.injEq] at h
            obtain ⟨-, -, h⟩ := h
            exact ih (k + 1)
              (i + (p.samples_per_buffer - p.offset % p.samples_per_buffer)) (cnt + 1)
              ⟨p.bytes_per_sample, p.samples_per_buffer,
                (p.offset + (p.samples_per_buffer - p.offset % p.samples_per_buffer))
                  % (p.samples_per_buffer * B),
                memcpy p.ptr (p.offset * p.bytes_per_sample) src (i * p.bytes_per_sample)
                  ((p.samples_per_buffer - p.offset % p.samples_per_buffer)
                    * p.bytes_per_sample)⟩
              hs hn0 hn1 pre1 post dst s n h
      · rw [if_neg hfull] at h
        have hdec : decide (p.offset + (count - i) < p.samples_per_buffer * B) = true :=
          decide_eq_true (by omega)
        rw [hdec] at h
        rcases pre with _ | ⟨x, _ | ⟨y, pre1⟩⟩
        · simp only [List.nil_append, List.cons.injEq, Event.memcpy.injEq] at h
          obtain ⟨⟨rfl, -, rfl⟩, hpost⟩ := h
          refine Or.inr ⟨hpost.symm, p.offset / p.samples_per_buffer, hf0, hf1, ?_, ?_⟩
          · exact mul_le_mul_of_nonneg_right (by rw [mul_comm]; omega) hbps
          · have hsum : p.offset * (p.bytes_per_sample : Int)
                + (count - i) * p.bytes_per_sample + p.bytes_per_sample
                = (p.offset + (count - i) + 1) * p.bytes_per_sample := by ring
            rw [hsum]
            refine mul_le_mul_of_nonneg_right ?_ hbps
            have : (p.offset / p.samples_per_buffer + 1) * p.samples_per_buffer
                = p.samples_per_buffer * (p.offset / p.samples_per_buffer)
                  + p.samples_per_buffer := by ring
            omega
        · simp at h
        · simp at h
    · rw [if_neg hc] at h
      simp at h

/-! ## The three exits of `opensles_write` -/

theorem opensles_write_error (B : Nat) (Q : BufferQueue) (p : opensles_player_t)
    (samples : Int → Nat) (count : Int) (hg : Q.GetState.1 ≠ SL_RESULT_SUCCESS) :
    opensles_write B Q p samples count = ⟨int_of_u32 Q.GetState.1, p, []⟩ := by
  unfold opensles_write
  rw [if_pos (fun e => hg e.symm)]

/-- Exit of line 68: no free slot. -/
theorem opensles_write_full (B : Nat) (Q : BufferQueue) (p : opensles_player_t)
    (samples : Int → Nat) (count : Int) (hg : Q.GetState.1 = SL_RESULT_SUCCESS)
    (hc : B ≤ Q.GetState.2) :
    opensles_write B Q p samples count
      = ⟨-1, p, [Event.assert_count (decide (Q.GetState.2 ≤ B))]⟩ := by
  unfold opensles_write
  rw [if_neg (fun h => h hg.symm), if_pos hc]

/-- Otherwise the call is the run of the loop from `i = 0`, after the assertion
of line 66. -/
theorem opensles_write_loop (B : Nat) (Q : BufferQueue) (p : opensles_player_t)
    (samples : Int → Nat) (count : Int) (hg : Q.GetState.1 = SL_RESULT_SUCCESS)
    (hc : Q.GetState.2 < B) :
    opensles_write B Q p samples count
      = ⟨(write_loop B Q samples count (B - Q.GetState.2) 0 0 Q.GetState.2 p).ret,
          (write_loop B Q samples count (B - Q.GetState.2) 0 0 Q.GetState.2 p).player,
          Event.assert_count true
            :: (write_loop B Q samples count (B - Q.GetState.2) 0 0 Q.GetState.2 p).trace⟩ := by
  unfold opensles_write
  rw [if_neg (fun h => h hg.symm), if_neg (by omega)]
  have : decide (Q.GetState.2 ≤ B) = true := decide_eq_true (by omega)
  rw [this]

/-- The successful run of `opensles_write` in closed form. -/
theorem opensles_write_ok (B : Nat) (Q : BufferQueue) (p : opensles_player_t)
    (samples : Int → Nat) (count : Int)
    (hs : 0 < p.samples_per_buffer) (h0 : 0 ≤ p.offset)
    (h1 : p.offset < p.samples_per_buffer * B)
    (hg : Q.GetState.1 = SL_RESULT_SUCCESS) (hc : Q.GetState.2 < B)
    (hQ : ∀ k, Q.Enqueue k = SL_RESULT_SUCCESS) (hn : 0 ≤ count) :
    (opensles_write B Q p samples count).ret
      = write_span B count 0 Q.GetState.2 p.samples_per_buffer p.offset ∧
    (opensles_write B Q p samples count).player.offset
      = (p.offset + write_span B count 0 Q.GetState.2 p.samples_per_buffer p.offset)
        % (p.samples_per_buffer * B) ∧
    (enqueues (opensles_write B Q p samples count).trace : Int)
      = (p.offset % p.samples_per_buffer
          + write_span B count 0 Q.GetState.2 p.samples_per_buffer p.offset)
        / p.samples_per_buffer ∧
    (opensles_write B Q p samples count).player.samples_per_buffer = p.samples_per_buffer ∧
    (opensles_write B Q p samples count).player.bytes_per_sample = p.bytes_per_sample ∧
    (∀ j b : Int, 0 ≤ j →
      j < write_span B count 0 Q.GetState.2 p.samples_per_buffer p.offset →
      0 ≤ b → b < p.bytes_per_sample →
      (opensles_write B Q p samples count).player.ptr
          ((p.offset + j) % (p.samples_per_buffer * B) * p.bytes_per_sample + b)
        = samples (j * p.bytes_per_sample + b)) ∧
    (∀ a : Int,
      (∀ j b : Int, 0 ≤ j →
        j < write_span B count 0 Q.GetState.2 p.samples_per_buffer p.offset →
        0 ≤ b → b < p.bytes_per_sample →
        a ≠ (p.offset + j) % (p.samples_per_buffer * B) * p.bytes_per_sample + b) →
      (opensles_write B Q p samples count).player.ptr a = p.ptr a) := by
  rw [opensles_write_loop B Q p samples count hg hc]
  obtain ⟨e1, e2, e3, e4, e5⟩ := write_loop_ok B Q samples count hQ
    (B - Q.GetState.2) 0 0 Q.GetState.2 p (le_refl _) hs h0 h1 hn
  obtain ⟨m1, m2⟩ := write_loop_mem B Q samples count hQ
    (B - Q.GetState.2) 0 0 Q.GetState.2 p (le_refl _) hs h0 h1 hn
  refine ⟨by rw [e1, zero_add], e2, ?_, e4, e5, ?_, m2⟩
  · rw [← e3]
    rfl
  · intro j b hj0 hj1 hb0 hb1
    have := m1 j b hj0 hj1 hb0 hb1
    rw [zero_add] at this
    exact this

/-- A call all of whose submissions were accepted runs as against the engine
that accepts everything. -/
theorem opensles_write_accepting (B : Nat) (Q : BufferQueue) (p : opensles_player_t)
    (samples : Int → Nat) (count : Int)
    (h : ∀ (b z : Int) (r : SLresult),
      Event.Enqueue b z r ∈ (opensles_write B Q p samples count).trace →
      r = SL_RESULT_SUCCESS) :
    opensles_write B Q p samples count
      = opensles_write B ⟨Q.GetState, fun _ => SL_RESULT_SUCCESS⟩ p samples count := by
  by_cases hg : Q.GetState.1 = SL_RESULT_SUCCESS
  · by_cases hlt : Q.GetState.2 < B
    · rw [opensles_write_loop B Q p samples count hg hlt] at h
      rw [opensles_write_loop B Q p samples count hg hlt,
        opensles_write_loop B ⟨Q.GetState, fun _ => SL_RESULT_SUCCESS⟩ p samples count hg hlt,
        write_loop_accepting B Q samples count _ 0 0 _ p
          (fun b z r hm => h b z r (List.mem_cons_of_mem _ hm))]
    · rw [opensles_write_full B Q p samples count hg (by omega),
        opensles_write_full B ⟨Q.GetState, fun _ => SL_RESULT_SUCCESS⟩ p samples count hg
          (by show B ≤ Q.GetState.2; omega)]
  · rw [opensles_write_error B Q p samples count hg,
      opensles_write_error B ⟨Q.GetState, fun _ => SL_RESULT_SUCCESS⟩ p samples count hg]

/-- Against an engine that accepts everything every submission of a call is
recorded as accepted. -/
theorem opensles_write_accepted (B : Nat) (Q : BufferQueue) (p : opensles_player_t)
    (samples : Int → Nat) (count : Int) (hQ : ∀ k, Q.Enqueue k = SL_RESULT_SUCCESS)
    (b z : Int) (r : SLresult)
    (hm : Event.Enqueue b z r ∈ (opensles_write B Q p samples count).trace) :
    r = SL_RESULT_SUCCESS := by
  by_cases hg : Q.GetState.1 = SL_RESULT_SUCCESS
  · by_cases hlt : Q.GetState.2 < B
    · rw [opensles_write_loop B Q p samples count hg hlt] at hm
      simp only [List.mem_cons, reduceCtorEq, false_or] at hm
      exact write_loop_accepted B Q samples count hQ _ 0 0 _ p b z r hm
    · rw [opensles_write_full B Q p samples count hg (by omega)] at hm
      simp at hm
  · rw [opensles_write_error B Q p samples count hg] at hm
    simp at hm

/-- A call with nothing to write leaves everything as it was. -/
theorem opensles_write_nothing (B : Nat) (Q : BufferQueue) (p : opensles_player_t)
    (samples : Int → Nat) (count : Int)
    (hg : Q.GetState.1 = SL_RESULT_SUCCESS) (hc : Q.GetState.2 < B) (hn : count ≤ 0) :
    opensles_write B Q p samples count = ⟨0, p, [Event.assert_count true]⟩ := by
  rw [opensles_write_loop B Q p samples count hg hc,
    write_loop_exit B Q samples count _ 0 0 _ p (by omega)]


/-! ## Filling the ring against an engine that never drains -/

theorem total_nonneg (calls : List ((Int → Nat) × Int)) (hpos : ∀ c ∈ calls, 0 < c.2) :
    0 ≤ total calls := by
  induction calls with
  | nil => exact le_refl _
  | cons c rest ih =>
    have h1 := hpos c (List.mem_cons_self _ _)
    have h2 := ih (fun d hd => hpos d (List.mem_cons_of_mem _ hd))
    show 0 ≤ c.2 + total rest
    omega

/-- State of the ring after `T` samples were written since the session was
opened: what the remaining calls, which fill it up, do. -/
theorem session_run_fill (B : Nat) :
    ∀ (calls : List ((Int → Nat) × Int)) (s : Session) (T : Int),
      0 < s.player.samples_per_buffer → 0 ≤ T →
      s.player.offset = T % (s.player.samples_per_buffer * B) →
      (s.queued : Int) = T / s.player.samples_per_buffer →
      (∀ c ∈ calls, 0 < c.2) → T + total calls = s.player.samples_per_buffer * B →
      (session_run B s calls).1 = calls.map Prod.snd ∧
      (∀ pre post : List ((Int → Nat) × Int), calls = pre ++ post → post ≠ [] →
        (session_run B s pre).2.queued < B) ∧
      (session_run B s calls).2.queued = B ∧
      (session_run B s calls).2.player.bytes_per_sample = s.player.bytes_per_sample ∧
      (session_run B s calls).2.player.samples_per_buffer = s.player.samples_per_buffer ∧
      (∀ t b : Int, T ≤ t → t < s.player.samples_per_buffer * B → 0 ≤ b →
        b < s.player.bytes_per_sample →
        (session_run B s calls).2.player.ptr (t * s.player.bytes_per_sample + b)
          = stream s.player.bytes_per_sample calls ((t - T) * s.player.bytes_per_sample + b)) ∧
      (∀ a : Int, a < T * s.player.bytes_per_sample →
        (session_run B s calls).2.player.ptr a = s.player.ptr a) := by
  intro calls
  induction calls with
  | nil =>
    intro s T hs hT hoff hq hpos hsum
    have hT' : T = s.player.samples_per_buffer * B := by
      have : total ([] : List ((Int → Nat) × Int)) = 0 := rfl
      omega
    refine ⟨rfl, ?_, ?_, rfl, rfl, ?_, fun _ _ => rfl⟩
    · intro pre post h hne
      rcases pre with _ | ⟨x, pre⟩
      · exact absurd h.symm hne
      · simp at h
    · show s.queued = B
      rw [hT', Int.mul_ediv_cancel_left _ hs.ne'] at hq
      exact_mod_cast hq
    · intro t b ht0 ht1
      omega
  | cons c rest ih =>
    intro s T hs hT hoff hq hpos hsum
    have hc0 : 0 < c.2 := hpos c (List.mem_cons_self _ _)
    have hrest : ∀ d ∈ rest, 0 < d.2 := fun d hd => hpos d (List.mem_cons_of_mem _ hd)
    have htot := total_nonneg rest hrest
    have hsum' : T + (c.2 + total rest) = s.player.samples_per_buffer * B := hsum
    have hTlt : T < s.player.samples_per_buffer * B := by omega
    have hoffT : s.player.offset = T := by rw [hoff, Int.emod_eq_of_lt hT hTlt]
    have hdm := Int.ediv_add_emod T s.player.samples_per_buffer
    have hr0 : 0 ≤ T % s.player.samples_per_buffer := Int.emod_nonneg _ hs.ne'
    have hr1 : T % s.player.samples_per_buffer < s.player.samples_per_buffer :=
      Int.emod_lt_of_pos _ hs
    have hqB : T / s.player.samples_per_buffer < B :=
      Int.ediv_lt_of_lt_mul hs (by rw [mul_comm]; exact hTlt)
    have hcB : (stalled s.queued).GetState.2 < B := by
      show s.queued < B
      omega
    obtain ⟨e1, e2, e3, e4, e5, m1, m2⟩ := opensles_write_ok B (stalled s.queued) s.player
      c.1 c.2 hs (by omega) (by omega) rfl hcB (fun _ => rfl) hc0.le
    have hspan : write_span B c.2 0 (stalled s.queued).GetState.2
        s.player.samples_per_buffer s.player.offset = c.2 := by
      unfold write_span
      rw [if_pos hcB, hoffT, sub_zero]
      have hmul : ((B : Int) - ((stalled s.queued).GetState.2 : Nat) - 1)
            * s.player.samples_per_buffer
          = s.player.samples_per_buffer * B
            - s.player.samples_per_buffer * ((stalled s.queued).GetState.2 : Nat)
            - s.player.samples_per_buffer := by ring
      have hqq : (((stalled s.queued).GetState.2 : Nat) : Int)
          = T / s.player.samples_per_buffer := hq
      rw [hmul, hqq]
      omega
    rw [hspan] at e1 e2 e3 m1 m2
    rw [hoffT] at e2 e3 m1 m2
    have hbps : (0 : Int) ≤ s.player.bytes_per_sample := Int.ofNat_nonneg _
    have hq1 : ((s.queued
          + enqueues (opensles_write B (stalled s.queued) s.player c.1 c.2).trace : Nat) : Int)
        = (T + c.2) / s.player.samples_per_buffer := by
      have hsplit : T + c.2 = T % s.player.samples_per_buffer + c.2
          + s.player.samples_per_buffer * (T / s.player.samples_per_buffer) := by omega
      rw [Nat.cast_add, e3, hq, hsplit, Int.add_mul_ediv_left _ _ hs.ne']
      ring
    have hrun : session_run B s (c :: rest)
        = ((opensles_write B (stalled s.queued) s.player c.1 c.2).ret
            :: (session_run B (session_write B s c.1 c.2).2 rest).1,
          (session_run B (session_write B s c.1 c.2).2 rest).2) := rfl
    have hp1 : (session_write B s c.1 c.2).2.player
        = (opensles_write B (stalled s.queued) s.player c.1 c.2).player := rfl
    have hq1' : (session_write B s c.1 c.2).2.queued
        = s.queued + enqueues (opensles_write B (stalled s.queued) s.player c.1 c.2).trace :=
      rfl
    obtain ⟨i1, i2, i3, i4, i5, i6, i7⟩ := ih (session_write B s c.1 c.2).2 (T + c.2)
      (by rw [hp1, e4]; exact hs) (by omega) (by rw [hp1, e4]; exact e2)
      (by rw [hp1, hq1', e4]; exact hq1) hrest (by rw [hp1, e4]; omega)
    rw [hp1, e4, e5] at i6
    rw [hp1, e5] at i7
    rw [hp1] at i4 i5
    rw [hrun]
    refine ⟨?_, ?_, i3, i4.trans e5, i5.trans e4, ?_, ?_⟩
    · show _ :: _ = c.2 :: rest.map Prod.snd
      rw [e1, i1]
    · intro pre post h hne
      rcases pre with _ | ⟨x, pre1⟩
      · show s.queued < B
        exact hcB
      · simp only [List.cons_append, List.cons.injEq] at h
        obtain ⟨rfl, h⟩ := h
        exact i2 pre1 post h hne
    · intro t b ht0 ht1 hb0 hb1
      show (session_run B (session_write B s c.1 c.2).2 rest).2.player.ptr
          (t * s.player.bytes_per_sample + b)
        = if (t - T) * s.player.bytes_per_sample + b < c.2 * s.player.bytes_per_sample
          then c.1 ((t - T) * s.player.bytes_per_sample + b)
          else stream s.player.bytes_per_sample rest
            ((t - T) * s.player.bytes_per_sample + b - c.2 * s.player.bytes_per_sample)
      by_cases hlt : t < T + c.2
      · have hmul : (t - T + 1) * (s.player.bytes_per_sample : Int)
            ≤ c.2 * s.player.bytes_per_sample :=
          mul_le_mul_of_nonneg_right (by omega) hbps
        have hmul' : (t + 1) * (s.player.bytes_per_sample : Int)
            ≤ (T + c.2) * s.player.bytes_per_sample :=
          mul_le_mul_of_nonneg_right (by omega) hbps
        have x1 : (t - T + 1) * (s.player.bytes_per_sample : Int)
            = (t - T) * s.player.bytes_per_sample + s.player.bytes_per_sample := by ring
        have x2 : (t + 1) * (s.player.bytes_per_sample : Int)
            = t * s.player.bytes_per_sample + s.player.bytes_per_sample := by ring
        rw [if_pos (by omega), i7 _ (by omega)]
        have := m1 (t - T) b (by omega) (by omega) hb0 hb1
        have ht : (T + (t - T)) % (s.player.samples_per_buffer * B) = t := by
          rw [add_sub_cancel, Int.emod_eq_of_lt (by omega) ht1]
        rw [ht] at this
        exact this
      · have hmul : c.2 * (s.player.bytes_per_sample : Int)
            ≤ (t - T) * s.player.bytes_per_sample :=
          mul_le_mul_of_nonneg_right (by omega) hbps
        rw [if_neg (by omega), i6 t b (by omega) ht1 hb0 hb1]
        congr 1
        ring
    · intro a ha
      have hmul : T * (s.player.bytes_per_sample : Int)
          ≤ (T + c.2) * s.player.bytes_per_sample :=
        mul_le_mul_of_nonneg_right (by omega) hbps
      show (session_run B (session_write B s c.1 c.2).2 rest).2.player.ptr a = s.player.ptr a
      rw [i7 a (by omega)]
      apply m2
      intro j b hj0 hj1 hb0 hb1
      rw [Int.emod_eq_of_lt (by omega) (by omega)]
      have hmul2 : T * (s.player.bytes_per_sample : Int)
          ≤ (T + j) * s.player.bytes_per_sample :=
        mul_le_mul_of_nonneg_right (by omega) hbps
      omega

/-! ## The claims -/

/-- C1: when the state query succeeds and reports `OPENSLES_BUFFERS`
outstanding frames, `opensles_write` returns -1, makes no copy and submits no
frame (its trace holds the assertion of line 66 only), and leaves the write
offset and every byte of the backing store unchanged. -/
theorem opensles_write_backpressure (B : Nat) (Q : BufferQueue) (p : opensles_player_t)
    (samples : Int → Nat) (count : Int)
    (hg : Q.GetState.1 = SL_RESULT_SUCCESS) (hfull : Q.GetState.2 = B) :
    (opensles_write B Q p samples count).ret = -1 ∧
    enqueues (opensles_write B Q p samples count).trace = 0 ∧
    (opensles_write B Q p samples count).trace = [Event.assert_count true] ∧
    (opensles_write B Q p samples count).player.offset = p.offset ∧
    (∀ a : Int, (opensles_write B Q p samples count).player.ptr a = p.ptr a) := by
  rw [opensles_write_full B Q p samples count hg (by omega)]
  have : decide (Q.GetState.2 ≤ B) = true := decide_eq_true (by omega)
  rw [this]
  exact ⟨rfl, rfl, rfl, rfl, fun _ => rfl⟩

/-- Instance of C1: a write of 10 samples with both slots of a ring of 2 frames
outstanding. -/
theorem opensles_write_backpressure_witness :
    (stalled 2).GetState.1 = SL_RESULT_SUCCESS ∧ (stalled 2).GetState.2 = 2 ∧
    (opensles_write 2 (stalled 2) demo_unaligned demo_samples 10).ret = -1 ∧
    enqueues (opensles_write 2 (stalled 2) demo_unaligned demo_samples 10).trace = 0 ∧
    (opensles_write 2 (stalled 2) demo_unaligned demo_samples 10).trace
      = [Event.assert_count true] ∧
    (opensles_write 2 (stalled 2) demo_unaligned demo_samples 10).player.offset
      = demo_unaligned.offset ∧
    (∀ a : Int, (opensles_write 2 (stalled 2) demo_unaligned demo_samples 10).player.ptr a
      = demo_unaligned.ptr a) :=
  ⟨rfl, rfl, opensles_write_backpressure 2 (stalled 2) demo_unaligned demo_samples 10 rfl rfl⟩

/-- C2: in a session with `samples_per_buffer > 0` and the write offset inside
the backing store, a call whose engine calls all succeed and which returns
`n ≥ 0` leaves the write offset at `(offset + n) mod capacity`, has put input
sample `k` (all its bytes) into the sample slot `(offset + k) mod capacity`
for every `k < n`, and has changed no byte outside those slots. -/
theorem opensles_write_store (B : Nat) (Q : BufferQueue) (p : opensles_player_t)
    (samples : Int → Nat) (count : Int)
    (hs : 0 < p.samples_per_buffer) (h0 : 0 ≤ p.offset)
    (h1 : p.offset < p.samples_per_buffer * B)
    (hg : Q.GetState.1 = SL_RESULT_SUCCESS)
    (hQ : ∀ (b z : Int) (r : SLresult),
      Event.Enqueue b z r ∈ (opensles_write B Q p samples count).trace →
      r = SL_RESULT_SUCCESS)
    (hn : 0 ≤ (opensles_write B Q p samples count).ret) :
    (opensles_write B Q p samples count).player.offset
      = (p.offset + (opensles_write B Q p samples count).ret) % (p.samples_per_buffer * B) ∧
    (∀ k b : Int, 0 ≤ k → k < (opensles_write B Q p samples count).ret →
      0 ≤ b → b < p.bytes_per_sample →
      (opensles_write B Q p samples count).player.ptr
          ((p.offset + k) % (p.samples_per_buffer * B) * p.bytes_per_sample + b)
        = samples (k * p.bytes_per_sample + b)) ∧
    (∀ a : Int,
      (∀ k b : Int, 0 ≤ k → k < (opensles_write B Q p samples count).ret →
        0 ≤ b → b < p.bytes_per_sample →
        a ≠ (p.offset + k) % (p.samples_per_buffer * B) * p.bytes_per_sample + b) →
      (opensles_write B Q p samples count).player.ptr a = p.ptr a) := by
  have hc : Q.GetState.2 < B := by
    by_contra hc
    rw [opensles_write_full B Q p samples count hg (by omega)] at hn
    have hneg : ¬ (0 : Int) ≤ -1 := by decide
    exact hneg hn
  by_cases hcount : 0 ≤ count
  · rw [opensles_write_accepting B Q p samples count hQ]
    obtain ⟨e1, e2, -, -, -, m1, m2⟩ :=
      opensles_write_ok B ⟨Q.GetState, fun _ => SL_RESULT_SUCCESS⟩ p samples count hs h0 h1
        hg hc (fun _ => rfl) hcount
    rw [e1]
    exact ⟨e2, m1, m2⟩
  · rw [opensles_write_nothing B Q p samples count hg hc (by omega)]
    refine ⟨?_, fun k b hk0 hk1 => ?_, fun _ _ => rfl⟩
    · show p.offset = (p.offset + 0) % (p.samples_per_buffer * B)
      rw [add_zero, Int.emod_eq_of_lt h0 h1]
    · exact absurd hk1 (by show ¬ k < 0; omega)

/-- Instance of C2: a write of 10 samples at write offset 5 of a ring of 2 frames
of 4 samples, one frame outstanding. -/
theorem opensles_write_store_witness :
    (opensles_write 2 (stalled 1) demo_unaligned demo_samples 10).player.offset
      = (demo_unaligned.offset
          + (opensles_write 2 (stalled 1) demo_unaligned demo_samples 10).ret)
        % (demo_unaligned.samples_per_buffer * (2 : Nat)) ∧
    (∀ k b : Int, 0 ≤ k →
      k < (opensles_write 2 (stalled 1) demo_unaligned demo_samples 10).ret →
      0 ≤ b → b < demo_unaligned.bytes_per_sample →
      (opensles_write 2 (stalled 1) demo_unaligned demo_samples 10).player.ptr
          ((demo_unaligned.offset + k) % (demo_unaligned.samples_per_buffer * (2 : Nat))
            * demo_unaligned.bytes_per_sample + b)
        = demo_samples (k * demo_unaligned.bytes_per_sample + b)) ∧
    (∀ a : Int,
      (∀ k b : Int, 0 ≤ k →
        k < (opensles_write 2 (stalled 1) demo_unaligned demo_samples 10).ret →
        0 ≤ b → b < demo_unaligned.bytes_per_sample →
        a ≠ (demo_unaligned.offset + k) % (demo_unaligned.samples_per_buffer * (2 : Nat))
          * demo_unaligned.bytes_per_sample + b) →
      (opensles_write 2 (stalled 1) demo_unaligned demo_samples 10).player.ptr a
        = demo_unaligned.ptr a) :=
  opensles_write_store 2 (stalled 1) demo_unaligned demo_samples 10
    (by decide) (by decide) (by decide) rfl
    (opensles_write_accepted 2 (stalled 1) demo_unaligned demo_samples 10 (fun _ => rfl))
    (by decide)


/-- C3: a call entered with `c ≤ OPENSLES_BUFFERS` outstanding frames submits
at most `OPENSLES_BUFFERS - c` frames, whatever the engine answers; with no
drain the outstanding count after the call is therefore at most
`OPENSLES_BUFFERS`. -/
theorem opensles_write_enqueue_bound (B : Nat) (Q : BufferQueue) (p : opensles_player_t)
    (samples : Int → Nat) (count : Int) (hc : Q.GetState.2 ≤ B) :
    enqueues (opensles_write B Q p samples count).trace ≤ B - Q.GetState.2 ∧
    Q.GetState.2 + enqueues (opensles_write B Q p samples count).trace ≤ B := by
  have key : enqueues (opensles_write B Q p samples count).trace ≤ B - Q.GetState.2 := by
    by_cases hg : Q.GetState.1 = SL_RESULT_SUCCESS
    · by_cases hlt : Q.GetState.2 < B
      · rw [opensles_write_loop B Q p samples count hg hlt]
        exact write_loop_enqueues_le B Q samples count _ 0 0 _ p
      · rw [opensles_write_full B Q p samples count hg (by omega)]
        exact Nat.zero_le _
    · rw [opensles_write_error B Q p samples count hg]
      exact Nat.zero_le _
  exact ⟨key, by omega⟩

/-- Instance of C3: one of 2 slots outstanding, at most one frame is submitted. -/
theorem opensles_write_enqueue_bound_witness :
    (stalled 1).GetState.2 ≤ 2 ∧
    enqueues (opensles_write 2 (stalled 1) demo_unaligned demo_samples 10).trace
      ≤ 2 - (stalled 1).GetState.2 ∧
    (stalled 1).GetState.2
      + enqueues (opensles_write 2 (stalled 1) demo_unaligned demo_samples 10).trace ≤ 2 :=
  ⟨by decide,
    opensles_write_enqueue_bound 2 (stalled 1) demo_unaligned demo_samples 10 (by decide)⟩

/-- C4: partial frames are never submitted. In a session with
`samples_per_buffer > 0` and the write offset inside the backing store, every
`Enqueue` of a call hands over one whole slot (it starts at byte
`f * samples_per_buffer * bytes_per_sample` for a frame index `0 ≤ f <
OPENSLES_BUFFERS` and is `samples_per_buffer * bytes_per_sample` bytes long),
and the event just before it is a copy of at least one sample into that slot
that ends on the slot's last byte. Every copy of a call is followed either by
an `Enqueue` or, when it ends at least one sample before the end of its
frame, by the assertion of line 88 and the end of the call: a call that ends
inside a frame submits nothing for it. A call whose engine calls all succeed
and which returns `n ≥ 0` submits exactly
`((offset mod samples_per_buffer) + n) / samples_per_buffer` frames. -/
theorem opensles_write_whole_frames (B : Nat) (Q : BufferQueue) (p : opensles_player_t)
    (samples : Int → Nat) (count : Int)
    (hs : 0 < p.samples_per_buffer) (h0 : 0 ≤ p.offset)
    (h1 : p.offset < p.samples_per_buffer * B) :
    (∀ (pre post : List Event) (buf size : Int) (ret : SLresult),
      (opensles_write B Q p samples count).trace = pre ++ Event.Enqueue buf size ret :: post →
      ∃ (pre' : List Event) (dst s n f : Int),
        pre = pre' ++ [Event.memcpy dst s n] ∧ 0 ≤ f ∧ f < B ∧
        buf = f * p.samples_per_buffer * p.bytes_per_sample ∧
        size = p.samples_per_buffer * p.bytes_per_sample ∧
        buf ≤ dst ∧ (p.bytes_per_sample : Int) ≤ n ∧ dst + n = buf + size) ∧
    (∀ (pre post : List Event) (dst s n : Int),
      (opensles_write B Q p samples count).trace = pre ++ Event.memcpy dst s n :: post →
      (∃ (buf size : Int) (ret : SLresult) (post' : List Event),
        post = Event.Enqueue buf size ret :: post') ∨
      (post = [Event.assert_offset true] ∧
        ∃ f : Int, 0 ≤ f ∧ f < B ∧
          f * p.samples_per_buffer * p.bytes_per_sample ≤ dst ∧
          dst + n + p.bytes_per_sample
            ≤ (f + 1) * p.samples_per_buffer * p.bytes_per_sample)) ∧
    (Q.GetState.1 = SL_RESULT_SUCCESS →
      (∀ (b z : Int) (r : SLresult),
        Event.Enqueue b z r ∈ (opensles_write B Q p samples count).trace →
        r = SL_RESULT_SUCCESS) →
      0 ≤ (opensles_write B Q p samples count).ret →
      (enqueues (opensles_write B Q p samples count).trace : Int)
        = (p.offset % p.samples_per_buffer + (opensles_write B Q p samples count).ret)
          / p.samples_per_buffer) := by
  refine ⟨?_, ?_, ?_⟩
  · intro pre post buf size ret h
    by_cases hg : Q.GetState.1 = SL_RESULT_SUCCESS
    · by_cases hlt : Q.GetState.2 < B
      · rw [opensles_write_loop B Q p samples count hg hlt] at h
        rcases pre with _ | ⟨x, pre1⟩
        · simp at h
        · simp only [List.cons_append, List.cons.injEq] at h
          obtain ⟨pre', dst, s, n, f, g1, g2⟩ := write_loop_frames B Q samples count _ 0 0 _ p
            hs h0 h1 pre1 post buf size ret h.2
          exact ⟨x :: pre', dst, s, n, f, by rw [g1]; rfl, g2⟩
      · rw [opensles_write_full B Q p samples count hg (by omega)] at h
        rcases pre with _ | ⟨x, pre1⟩ <;> simp at h
    · rw [opensles_write_error B Q p samples count hg] at h
      simp at h
  · intro pre post dst s n h
    by_cases hg : Q.GetState.1 = SL_RESULT_SUCCESS
    · by_cases hlt : Q.GetState.2 < B
      · rw [opensles_write_loop B Q p samples count hg hlt] at h
        rcases pre with _ | ⟨x, pre1⟩
        · simp at h
        · simp only [List.cons_append, List.cons.injEq] at h
          exact write_loop_copies B Q samples count _ 0 0 _ p hs h0 h1 pre1 post dst s n h.2
      · rw [opensles_write_full B Q p samples count hg (by omega)] at h
        rcases pre with _ | ⟨x, pre1⟩ <;> simp at h
    · rw [opensles_write_error B Q p samples count hg] at h
      simp at h
  · intro hg hQ hn
    have hc : Q.GetState.2 < B := by
      by_contra hc
      rw [opensles_write_full B Q p samples count hg (by omega)] at hn
      have hneg : ¬ (0 : Int) ≤ -1 := by decide
      exact hneg hn
    by_cases hcount : 0 ≤ count
    · rw [opensles_write_accepting B Q p samples count hQ]
      obtain ⟨e1, -, e3, -⟩ := opensles_write_ok B ⟨Q.GetState, fun _ => SL_RESULT_SUCCESS⟩
        p samples count hs h0 h1 hg hc (fun _ => rfl) hcount
      rw [e1]
      exact e3
    · rw [opensles_write_nothing B Q p samples count hg hc (by omega)]
      show ((0 : Nat) : Int) = (p.offset % p.samples_per_buffer + 0) / p.samples_per_buffer
      rw [add_zero, Int.ediv_eq_zero_of_lt (Int.emod_nonneg _ hs.ne') (Int.emod_lt_of_pos _ hs)]
      rfl

/-- Instance of C4: a write of 10 samples at write offset 5 with both slots free
submits (1 + 7) / 4 frames. -/
theorem opensles_write_whole_frames_witness :
    (0 < demo_unaligned.samples_per_buffer ∧ 0 ≤ demo_unaligned.offset ∧
      demo_unaligned.offset < demo_unaligned.samples_per_buffer * (2 : Nat)) ∧
    (enqueues (opensles_write 2 (stalled 0) demo_unaligned demo_samples 10).trace : Int)
      = (demo_unaligned.offset % demo_unaligned.samples_per_buffer
          + (opensles_write 2 (stalled 0) demo_unaligned demo_samples 10).ret)
        / demo_unaligned.samples_per_buffer :=
  ⟨⟨by decide, by decide, by decide⟩,
    (opensles_write_whole_frames 2 (stalled 0) demo_unaligned demo_samples 10
      (by decide) (by decide) (by decide)).2.2 rfl
      (opensles_write_accepted 2 (stalled 0) demo_unaligned demo_samples 10 (fun _ => rfl))
      (by decide)⟩

/-- C5: the range `0 ≤ offset < samples_per_buffer * OPENSLES_BUFFERS` is kept
by `opensles_write`: in a session with `samples_per_buffer > 0` whose write
offset is in the range, after any call (any count, any engine answers) the
write offset is in the range again, every copy of the call lies inside the
`OPENSLES_BUFFERS * samples_per_buffer * bytes_per_sample` bytes of the
backing store, and the assertion of line 88 holds whenever it is reached. -/
theorem opensles_write_offset_in_range (B : Nat) (Q : BufferQueue) (p : opensles_player_t)
    (samples : Int → Nat) (count : Int)
    (hs : 0 < p.samples_per_buffer) (h0 : 0 ≤ p.offset)
    (h1 : p.offset < p.samples_per_buffer * B) :
    (0 ≤ (opensles_write B Q p samples count).player.offset ∧
      (opensles_write B Q p samples count).player.offset < p.samples_per_buffer * B) ∧
    (opensles_write B Q p samples count).player.samples_per_buffer = p.samples_per_buffer ∧
    (∀ dst s n : Int, Event.memcpy dst s n ∈ (opensles_write B Q p samples count).trace →
      0 ≤ dst ∧ 0 ≤ n ∧ dst + n ≤ (B : Int) * p.samples_per_buffer * p.bytes_per_sample) ∧
    (∀ ok : Bool, Event.assert_offset ok ∈ (opensles_write B Q p samples count).trace →
      ok = true) := by
  by_cases hg : Q.GetState.1 = SL_RESULT_SUCCESS
  · by_cases hlt : Q.GetState.2 < B
    · rw [opensles_write_loop B Q p samples count hg hlt]
      obtain ⟨g1, g2, -, g4, g5⟩ := write_loop_safe B Q samples count
        (B - Q.GetState.2) 0 0 Q.GetState.2 p hs h0 h1
      refine ⟨g1, g2, ?_, ?_⟩
      · intro dst s n hm
        simp only [List.mem_cons, reduceCtorEq, false_or] at hm
        exact g4 dst s n hm
      · intro ok hm
        simp only [List.mem_cons, reduceCtorEq, false_or] at hm
        exact g5 ok hm
    · rw [opensles_write_full B Q p samples count hg (by omega)]
      exact ⟨⟨h0, h1⟩, rfl, fun _ _ _ hm => (by simp at hm), fun _ hm => (by simp at hm)⟩
  · rw [opensles_write_error B Q p samples count hg]
    exact ⟨⟨h0, h1⟩, rfl, fun _ _ _ hm => (by simp at hm), fun _ hm => (by simp at hm)⟩

/-- Instance of C5: a write of 2 samples at write offset 5 of a ring of 8 samples. -/
theorem opensles_write_offset_in_range_witness :
    (0 < demo_unaligned.samples_per_buffer ∧ 0 ≤ demo_unaligned.offset ∧
      demo_unaligned.offset < demo_unaligned.samples_per_buffer * (2 : Nat)) ∧
    (0 ≤ (opensles_write 2 (stalled 0) demo_unaligned demo_samples 2).player.offset ∧
      (opensles_write 2 (stalled 0) demo_unaligned demo_samples 2).player.offset
        < demo_unaligned.samples_per_buffer * (2 : Nat)) ∧
    (opensles_write 2 (stalled 0) demo_unaligned demo_samples 2).player.samples_per_buffer
      = demo_unaligned.samples_per_buffer ∧
    (∀ dst s n : Int,
      Event.memcpy dst s n ∈ (opensles_write 2 (stalled 0) demo_unaligned demo_samples 2).trace →
      0 ≤ dst ∧ 0 ≤ n ∧ dst + n ≤ ((2 : Nat) : Int) * demo_unaligned.samples_per_buffer
        * demo_unaligned.bytes_per_sample) ∧
    (∀ ok : Bool,
      Event.assert_offset ok
        ∈ (opensles_write 2 (stalled 0) demo_unaligned demo_samples 2).trace →
      ok = true) :=
  ⟨⟨by decide, by decide, by decide⟩,
    opensles_write_offset_in_range 2 (stalled 0) demo_unaligned demo_samples 2
      (by decide) (by decide) (by decide)⟩


/-- C6, the code at the failing input: when `GetState` fails with the error
code 1 (`SL_RESULT_PRECONDITIONS_VIOLATED`), `opensles_write` returns `1`, the
code as it is and not negated, which reads as one consumed sample; the write
offset and the backing store are unchanged. The same error code coming from
`Enqueue` is returned as `-1`. -/
theorem opensles_write_getstate_error_not_negated :
    (opensles_write 2 ⟨(1, 0), fun _ => SL_RESULT_SUCCESS⟩ demo_player demo_samples 10).ret = 1 ∧
    (opensles_write 2 ⟨(1, 0), fun _ => SL_RESULT_SUCCESS⟩ demo_player demo_samples 10).trace
      = [] ∧
    (opensles_write 2 ⟨(1, 0), fun _ => SL_RESULT_SUCCESS⟩ demo_player demo_samples
      10).player.offset = demo_player.offset ∧
    (opensles_write 2 ⟨(SL_RESULT_SUCCESS, 0), fun _ => 1⟩ demo_player demo_samples 10).ret
      = -1 := by
  decide

/-- C7: when a frame submission of a call fails with a 32-bit error code `e`,
`0 < e < 2 ^ 31`, the failed `Enqueue` is the last event of the call (the loop
is left at that frame, every earlier submission having succeeded), the call
returns `-e`, a negative value, and the write offset is not advanced for the
failed frame: it is still the offset the frame's chunk was copied to (the copy
just before the failed `Enqueue` starts at byte `offset * bytes_per_sample`
and the frame handed over is the one under `offset`), and it is the offset of
before the call when the failed submission is the call's first. -/
theorem opensles_write_enqueue_error (B : Nat) (Q : BufferQueue) (p : opensles_player_t)
    (samples : Int → Nat) (count : Int) (buf size : Int) (e : SLresult)
    (hmem : Event.Enqueue buf size e ∈ (opensles_write B Q p samples count).trace)
    (he0 : 0 < e) (he1 : e < 2 ^ 31) :
    (opensles_write B Q p samples count).ret = -(e : Int) ∧
    (opensles_write B Q p samples count).ret < 0 ∧
    ∃ (pre : List Event) (dst s n : Int),
      (opensles_write B Q p samples count).trace
        = pre ++ [Event.memcpy dst s n, Event.Enqueue buf size e] ∧
      (∀ (b z : Int) (r : SLresult), Event.Enqueue b z r ∈ pre → r = SL_RESULT_SUCCESS) ∧
      dst = (opensles_write B Q p samples count).player.offset
        * (opensles_write B Q p samples count).player.bytes_per_sample ∧
      buf = ((opensles_write B Q p samples count).player.offset
          - Int.tmod (opensles_write B Q p samples count).player.offset
              (opensles_write B Q p samples count).player.samples_per_buffer)
        * (opensles_write B Q p samples count).player.bytes_per_sample ∧
      (enqueues pre = 0 → (opensles_write B Q p samples count).player.offset = p.offset) := by
  have hne : e ≠ SL_RESULT_SUCCESS := Nat.ne_of_gt he0
  have hneg : -(e : Int) < 0 := neg_lt_zero.mpr (Int.ofNat_pos.mpr he0)
  by_cases hg : Q.GetState.1 = SL_RESULT_SUCCESS
  · by_cases hlt : Q.GetState.2 < B
    · rw [opensles_write_loop B Q p samples count hg hlt] at hmem ⊢
      simp only [List.mem_cons, reduceCtorEq, false_or] at hmem
      obtain ⟨g1, pre, dst, s, n, g2, g3, g4, g5, g6⟩ := write_loop_failure B Q samples count
        (B - Q.GetState.2) 0 0 Q.GetState.2 p buf size e hmem hne
      rw [if_pos he0, int_of_neg_u32 e he0 he1] at g1
      dsimp only
      refine ⟨g1, by rw [g1]; exact hneg, Event.assert_count true :: pre, dst, s, n, ?_, ?_,
        g4, g5, g6⟩
      · rw [g2]
        rfl
      · intro b z r hm
        simp only [List.mem_cons, reduceCtorEq, false_or] at hm
        exact g3 b z r hm
    · rw [opensles_write_full B Q p samples count hg (by omega)] at hmem
      simp at hmem
  · rw [opensles_write_error B Q p samples count hg] at hmem
    simp at hmem

/-- Instance of C7: the second submission of a write of 10 samples fails with the
error code 7 and the call returns -7. -/
theorem opensles_write_enqueue_error_witness :
    Event.Enqueue 8 8 7 ∈ (opensles_write 2 ⟨(SL_RESULT_SUCCESS, 0), fun k => if k = 1 then 7
      else SL_RESULT_SUCCESS⟩ demo_player demo_samples 10).trace ∧
    (opensles_write 2 ⟨(SL_RESULT_SUCCESS, 0), fun k => if k = 1 then 7
      else SL_RESULT_SUCCESS⟩ demo_player demo_samples 10).ret = -((7 : Nat) : Int) :=
  ⟨by decide,
    (opensles_write_enqueue_error 2 ⟨(SL_RESULT_SUCCESS, 0), fun k => if k = 1 then 7
      else SL_RESULT_SUCCESS⟩ demo_player demo_samples 10 8 8 7 (by decide) (by decide)
      (by decide)).1⟩

/-- C8 as stated fails: in the session reached by writing 5 samples (frames of
4 samples, 2 slots; one frame queued, write offset 5), exactly one slot is
free and the engine accepts the submission, yet a write of 10 = 2.5 x 4
samples returns 3, the room left in the frame under the write offset, and not
`samples_per_buffer` = 4. -/
theorem one_free_slot_unaligned :
    enqueues (opensles_write 2 (stalled 0) demo_player demo_samples 5).trace = 1 ∧
    demo_unaligned.samples_per_buffer = 4 ∧ demo_unaligned.offset = 5 ∧
    (stalled 1).GetState = (SL_RESULT_SUCCESS, 2 - 1) ∧
    (10 : Int) ≥ demo_unaligned.samples_per_buffer ∧
    (opensles_write 2 (stalled 1) demo_unaligned demo_samples 10).ret = 3 ∧
    (opensles_write 2 (stalled 1) demo_unaligned demo_samples 10).ret
      ≠ demo_unaligned.samples_per_buffer := by
  decide

/-- C8 amended: in a session with `samples_per_buffer > 0` and the write offset
inside the backing store, when exactly one slot is free and the engine accepts
the submission, a write of `count ≥ samples_per_buffer` samples consumes the
room left in the frame under the write offset, `samples_per_buffer - (offset
mod samples_per_buffer)` samples, submits exactly one frame and returns that
number; it is `samples_per_buffer` when the write offset is frame-aligned. -/
theorem opensles_write_one_free_slot (B : Nat) (Q : BufferQueue) (p : opensles_player_t)
    (samples : Int → Nat) (count : Int)
    (hs : 0 < p.samples_per_buffer) (h0 : 0 ≤ p.offset)
    (h1 : p.offset < p.samples_per_buffer * B)
    (hg : Q.GetState.1 = SL_RESULT_SUCCESS) (hone : Q.GetState.2 + 1 = B)
    (hQ : ∀ (b z : Int) (r : SLresult),
      Event.Enqueue b z r ∈ (opensles_write B Q p samples count).trace →
      r = SL_RESULT_SUCCESS)
    (hcount : p.samples_per_buffer ≤ count) :
    (opensles_write B Q p samples count).ret
      = p.samples_per_buffer - p.offset % p.samples_per_buffer ∧
    enqueues (opensles_write B Q p samples count).trace = 1 ∧
    (opensles_write B Q p samples count).player.offset
      = (p.offset + (p.samples_per_buffer - p.offset % p.samples_per_buffer))
        % (p.samples_per_buffer * B) ∧
    (p.offset % p.samples_per_buffer = 0 →
      (opensles_write B Q p samples count).ret = p.samples_per_buffer) := by
  rw [opensles_write_accepting B Q p samples count hQ]
  obtain ⟨e1, e2, e3, -⟩ := opensles_write_ok B ⟨Q.GetState, fun _ => SL_RESULT_SUCCESS⟩ p
    samples count hs h0 h1 hg (by show Q.GetState.2 < B; omega) (fun _ => rfl) (by omega)
  have hr0 : 0 ≤ p.offset % p.samples_per_buffer := Int.emod_nonneg _ hs.ne'
  have hr1 : p.offset % p.samples_per_buffer < p.samples_per_buffer := Int.emod_lt_of_pos _ hs
  have hspan : write_span B count 0 Q.GetState.2 p.samples_per_buffer p.offset
      = p.samples_per_buffer - p.offset % p.samples_per_buffer := by
    unfold write_span
    rw [if_pos (by omega)]
    have hB : (B : Int) - Q.GetState.2 - 1 = 0 := by omega
    rw [hB, zero_mul]
    omega
  dsimp only at e1 e2 e3
  rw [hspan] at e1 e2 e3
  refine ⟨e1, ?_, e2, fun h => by rw [e1, h, sub_zero]⟩
  have : p.offset % p.samples_per_buffer
      + (p.samples_per_buffer - p.offset % p.samples_per_buffer) = p.samples_per_buffer := by
    ring
  rw [this, Int.ediv_self hs.ne'] at e3
  exact_mod_cast e3

/-- Instance of C8 as amended: one slot free, write offset 5, a write of 10
samples. -/
theorem opensles_write_one_free_slot_witness :
    (0 < demo_unaligned.samples_per_buffer ∧ 0 ≤ demo_unaligned.offset ∧
      demo_unaligned.offset < demo_unaligned.samples_per_buffer * (2 : Nat) ∧
      (stalled 1).GetState.2 + 1 = 2 ∧ demo_unaligned.samples_per_buffer ≤ 10) ∧
    (opensles_write 2 (stalled 1) demo_unaligned demo_samples 10).ret
      = demo_unaligned.samples_per_buffer
        - demo_unaligned.offset % demo_unaligned.samples_per_buffer ∧
    enqueues (opensles_write 2 (stalled 1) demo_unaligned demo_samples 10).trace = 1 ∧
    (opensles_write 2 (stalled 1) demo_unaligned demo_samples 10).player.offset
      = (demo_unaligned.offset + (demo_unaligned.samples_per_buffer
          - demo_unaligned.offset % demo_unaligned.samples_per_buffer))
        % (demo_unaligned.samples_per_buffer * (2 : Nat)) ∧
    (demo_unaligned.offset % demo_unaligned.samples_per_buffer = 0 →
      (opensles_write 2 (stalled 1) demo_unaligned demo_samples 10).ret
        = demo_unaligned.samples_per_buffer) :=
  ⟨⟨by decide, by decide, by decide, by decide, by decide⟩,
    opensles_write_one_free_slot 2 (stalled 1) demo_unaligned demo_samples 10
      (by decide) (by decide) (by decide) rfl rfl
      (opensles_write_accepted 2 (stalled 1) demo_unaligned demo_samples 10 (fun _ => rfl))
      (by decide)⟩

/-- C10: closed form of the consumed count. In a session with
`samples_per_buffer > 0` and the write offset inside the backing store, for
`count ≥ 0`, `c < OPENSLES_BUFFERS` outstanding frames and an engine that
accepts every submission, `opensles_write` returns
`min count (free + (OPENSLES_BUFFERS - c - 1) * samples_per_buffer)` with
`free = samples_per_buffer - (offset mod samples_per_buffer)`; the result lies
between 0 and `count`, a write of no sample returns 0 and a write of exactly
`free` samples returns its full count. -/
theorem opensles_write_consumed (B : Nat) (Q : BufferQueue) (p : opensles_player_t)
    (samples : Int → Nat) (count : Int)
    (hs : 0 < p.samples_per_buffer) (h0 : 0 ≤ p.offset)
    (h1 : p.offset < p.samples_per_buffer * B) (hcount : 0 ≤ count)
    (hg : Q.GetState.1 = SL_RESULT_SUCCESS) (hc : Q.GetState.2 < B)
    (hQ : ∀ (b z : Int) (r : SLresult),
      Event.Enqueue b z r ∈ (opensles_write B Q p samples count).trace →
      r = SL_RESULT_SUCCESS) :
    (opensles_write B Q p samples count).ret
      = min count (p.samples_per_buffer - p.offset % p.samples_per_buffer
          + ((B : Int) - Q.GetState.2 - 1) * p.samples_per_buffer) ∧
    0 ≤ (opensles_write B Q p samples count).ret ∧
    (opensles_write B Q p samples count).ret ≤ count ∧
    (count = 0 → (opensles_write B Q p samples count).ret = 0) ∧
    (count = p.samples_per_buffer - p.offset % p.samples_per_buffer →
      (opensles_write B Q p samples count).ret = count) := by
  rw [opensles_write_accepting B Q p samples count hQ]
  obtain ⟨e1, -⟩ := opensles_write_ok B ⟨Q.GetState, fun _ => SL_RESULT_SUCCESS⟩ p samples
    count hs h0 h1 hg hc (fun _ => rfl) hcount
  dsimp only at e1
  have hr0 : 0 ≤ p.offset % p.samples_per_buffer := Int.emod_nonneg _ hs.ne'
  have hr1 : p.offset % p.samples_per_buffer < p.samples_per_buffer := Int.emod_lt_of_pos _ hs
  have hX : 0 ≤ ((B : Int) - Q.GetState.2 - 1) * p.samples_per_buffer :=
    mul_nonneg (by omega) hs.le
  have hspan : write_span B count 0 Q.GetState.2 p.samples_per_buffer p.offset
      = min count (p.samples_per_buffer - p.offset % p.samples_per_buffer
          + ((B : Int) - Q.GetState.2 - 1) * p.samples_per_buffer) := by
    unfold write_span
    rw [if_pos hc, sub_zero]
  rw [hspan] at e1
  rw [e1]
  refine ⟨rfl, by omega, by omega, fun h => by omega, fun h => by omega⟩

/-- Instance of C10: a write of 20 samples at write offset 5 of a ring of 3
frames of 4 samples, one frame outstanding. -/
theorem opensles_write_consumed_witness :
    (0 < demo_unaligned.samples_per_buffer ∧ 0 ≤ demo_unaligned.offset ∧
      demo_unaligned.offset < demo_unaligned.samples_per_buffer * (3 : Nat) ∧
      (0 : Int) ≤ 20 ∧ (stalled 1).GetState.2 < 3) ∧
    (opensles_write 3 (stalled 1) demo_unaligned demo_samples 20).ret
      = min 20 (demo_unaligned.samples_per_buffer
          - demo_unaligned.offset % demo_unaligned.samples_per_buffer
          + (((3 : Nat) : Int) - (stalled 1).GetState.2 - 1)
            * demo_unaligned.samples_per_buffer) ∧
    0 ≤ (opensles_write 3 (stalled 1) demo_unaligned demo_samples 20).ret ∧
    (opensles_write 3 (stalled 1) demo_unaligned demo_samples 20).ret ≤ 20 ∧
    ((20 : Int) = 0 → (opensles_write 3 (stalled 1) demo_unaligned demo_samples 20).ret = 0) ∧
    ((20 : Int) = demo_unaligned.samples_per_buffer
        - demo_unaligned.offset % demo_unaligned.samples_per_buffer →
      (opensles_write 3 (stalled 1) demo_unaligned demo_samples 20).ret = 20) :=
  ⟨⟨by decide, by decide, by decide, by decide, by decide⟩,
    opensles_write_consumed 3 (stalled 1) demo_unaligned demo_samples 20
      (by decide) (by decide) (by decide) (by decide) rfl (by decide)
      (opensles_write_accepted 3 (stalled 1) demo_unaligned demo_samples 20 (fun _ => rfl))⟩


/-- C9: from a session with write offset 0, `samples_per_buffer > 0` and an
empty queue, against an engine that accepts every submission, never drains and
reports the frames submitted so far, every sequence of `opensles_write` calls
with positive counts whose total is `OPENSLES_BUFFERS * samples_per_buffer`
behaves as follows: each call returns its full count; after every proper
prefix of the sequence fewer than `OPENSLES_BUFFERS` frames are outstanding
and after the whole sequence exactly `OPENSLES_BUFFERS`; any further write
returns -1; and the backing store holds the concatenated input, sample `t` of
the stream in sample slot `t`. -/
theorem fill_ring (B : Nat) (p : opensles_player_t) (calls : List ((Int → Nat) × Int))
    (hs : 0 < p.samples_per_buffer) (h0 : p.offset = 0)
    (hpos : ∀ c ∈ calls, 0 < c.2) (hsum : total calls = B * p.samples_per_buffer) :
    (session_run B ⟨p, 0⟩ calls).1 = calls.map Prod.snd ∧
    (∀ pre post : List ((Int → Nat) × Int), calls = pre ++ post → post ≠ [] →
      (session_run B ⟨p, 0⟩ pre).2.queued < B) ∧
    (session_run B ⟨p, 0⟩ calls).2.queued = B ∧
    (∀ (samples : Int → Nat) (count : Int),
      (session_write B (session_run B ⟨p, 0⟩ calls).2 samples count).1 = -1) ∧
    (∀ t b : Int, 0 ≤ t → t < B * p.samples_per_buffer → 0 ≤ b → b < p.bytes_per_sample →
      (session_run B ⟨p, 0⟩ calls).2.player.ptr (t * p.bytes_per_sample + b)
        = stream p.bytes_per_sample calls (t * p.bytes_per_sample + b)) := by
  obtain ⟨i1, i2, i3, -, -, i6, -⟩ := session_run_fill B calls ⟨p, 0⟩ 0 hs (le_refl _)
    (by show p.offset = 0 % (p.samples_per_buffer * B); rw [Int.zero_emod]; exact h0)
    (by show ((0 : Nat) : Int) = 0 / p.samples_per_buffer; rw [Int.zero_ediv]; rfl) hpos
    (by show 0 + total calls = p.samples_per_buffer * B; rw [zero_add, hsum, mul_comm])
  refine ⟨i1, i2, i3, ?_, ?_⟩
  · intro samples count
    show (opensles_write B (stalled (session_run B ⟨p, 0⟩ calls).2.queued)
      (session_run B ⟨p, 0⟩ calls).2.player samples count).ret = -1
    rw [opensles_write_full B _ _ samples count rfl
      (by show B ≤ (session_run B ⟨p, 0⟩ calls).2.queued; omega)]
  · intro t b ht0 ht1 hb0 hb1
    have := i6 t b ht0 (by show t < p.samples_per_buffer * B; rw [mul_comm]; exact ht1) hb0 hb1
    rw [sub_zero] at this
    exact this

/-- Instance of C9: writes of 3 and 5 samples fill a ring of 2 frames of 4
samples. -/
theorem fill_ring_witness :
    (0 < demo_player.samples_per_buffer ∧ demo_player.offset = 0 ∧
      total demo_calls = (2 : Nat) * demo_player.samples_per_buffer) ∧
    (session_run 2 ⟨demo_player, 0⟩ demo_calls).1 = demo_calls.map Prod.snd ∧
    (session_run 2 ⟨demo_player, 0⟩ demo_calls).2.queued = 2 :=
  ⟨⟨by decide, rfl, by decide⟩,
    (fill_ring 2 demo_player demo_calls (by decide) rfl (by decide) (by decide)).1,
    (fill_ring 2 demo_player demo_calls (by decide) rfl (by decide) (by decide)).2.2.1⟩

end OpenSLES
